import Mathlib

/-!
Shallow embedding of the rarity-based NFT generation engine (`RarityEngine`)
from the repository source, together with theorems settling the frozen claims
about it.  JavaScript numbers appearing in weight computations are modelled as
exact rationals (`ℚ`); integer counters and point values as `ℤ`; the seeded
linear-congruential RNG state as `ℕ`.  Thrown JavaScript exceptions are
modelled as `Except String` / explicit error values, and the engine's mutable
fields (`remainingTierQuotas`, `remainingVariantQuotas`, `rngSeed`) as an
explicit state record threaded through each operation.
-/

namespace RarityEngine

/-- A variant entry of a trait (category): `{ name, tier, points, quota }`. -/
structure Variant where
  name : String
  tier : String
  points : Int
  quota : Int
deriving DecidableEq, Repr

/-- A trait (category) with its ordered variants: `{ trait, variants }`. -/
structure TraitCfg where
  trait : String
  variants : List Variant
deriving DecidableEq, Repr

/-- A rarity tier: `{ id, name, scoreRange: [min, max], quota }`. -/
structure Tier where
  id : String
  name : String
  scoreRange : Int × Int
  quota : Int
deriving DecidableEq, Repr

/-- A validated rarity configuration (the immutable `this.config`). -/
structure Config where
  collectionSize : Int
  tiers : List Tier
  traits : List TraitCfg
deriving DecidableEq, Repr

/-- One selection entry pushed by `selectVariantsForTier`:
`{ trait: traitConfig.trait, variant: selectedVariant }`. -/
structure Selection where
  trait : String
  variant : Variant
deriving DecidableEq, Repr

/-- The engine's mutable state: `remainingTierQuotas`,
`remainingVariantQuotas` and `rngSeed`. -/
structure QState where
  remTiers : List Tier
  remTraits : List TraitCfg
  seed : Nat
deriving DecidableEq, Repr

/-- `this.rngSeed = (this.rngSeed * 9301 + 49297) % 233280` -/
def nextSeed (s : Nat) : Nat := (s * 9301 + 49297) % 233280

/-- The common positive denominator of every `seededRandom()` value. -/
def rngDen : Int := 233280

/-- The numerator of the value returned by `seededRandom()`: the updated
seed.  The returned value itself is `rngNum s / rngDen`. -/
def rngNum (s : Nat) : Int := (nextSeed s : Int)

/-- The value returned by `seededRandom()`: the updated seed divided by
`233280`, as an exact rational. -/
def rngValue (s : Nat) : ℚ := (rngNum s : ℚ) / (rngDen : ℚ)

/-- The bell-curve multiplier table from `selectTierWeighted`
(`0.5 / 0.7 / 1.2 / 1.8 / 2.5`, default `1.0`). -/
def bellCurveMultiplier (id : String) : ℚ :=
  if id = "T1" ∨ id = "T9" then 1/2
  else if id = "T2" ∨ id = "T8" then 7/10
  else if id = "T3" ∨ id = "T7" then 6/5
  else if id = "T4" ∨ id = "T6" then 9/5
  else if id = "T5" then 5/2
  else 1

/-- `10 * bellCurveMultiplier`, an integer (`5 / 7 / 12 / 18 / 25`,
default `10`). -/
def bellMult10 (id : String) : Int :=
  if id = "T1" ∨ id = "T9" then 5
  else if id = "T2" ∨ id = "T8" then 7
  else if id = "T3" ∨ id = "T7" then 12
  else if id = "T4" ∨ id = "T6" then 18
  else if id = "T5" then 25
  else 10

/-- Bit length of a natural number (`0` for `0`), written with an explicit
fuel argument so that it is structurally recursive; the fuel only needs to
be at least the bit length, so calling it with the number itself is always
sufficient. -/
def natBits : Nat → Nat → Nat
  | 0, _ => 0
  | fuel + 1, m => if m = 0 then 0 else natBits fuel (m / 2) + 1

/-- Bit length of a natural number: `0` for `0`, otherwise the position of
the highest set bit plus one. -/
def bitLen (n : Nat) : Nat := natBits n n

/-- The bell-curve multiplier table as the engine's JavaScript runtime
stores it: the exact value of each double-precision (binary64) literal,
scaled by `2^52`.  `0.5`, `2.5` and the default `1.0` are dyadic and
therefore exact; `0.7`, `1.2` and `1.8` are not representable and round to
the nearest double:

  * `0.5 = 2251799813685248 / 2^52` (exact, `2^51 / 2^52`),
  * `0.7 = 3152519739159347 / 2^52` (nearest double, slightly below `7/10`),
  * `1.2 = 5404319552844595 / 2^52` (nearest double, slightly below `6/5`),
  * `1.8 = 8106479329266893 / 2^52` (nearest double, slightly above `9/5`),
  * `2.5 = 11258999068426240 / 2^52` (exact, `(2^53 + 2^51) / 2^52`),
  * `1.0 = 4503599627370496 / 2^52` (exact, `2^52 / 2^52`). -/
def bellCurveMult52 (id : String) : Nat :=
  if id = "T1" ∨ id = "T9" then 2251799813685248
  else if id = "T2" ∨ id = "T8" then 3152519739159347
  else if id = "T3" ∨ id = "T7" then 5404319552844595
  else if id = "T4" ∨ id = "T6" then 8106479329266893
  else if id = "T5" then 11258999068426240
  else 4503599627370496

/-- IEEE-754 round-to-nearest, ties-to-even, of a natural number to 53
significant binary digits: numbers below `2^53` are exactly representable
and returned unchanged; otherwise the low `s = bitLen N - 53` bits are
rounded away (up above the halfway point, down below it, to the even
candidate at the exact tie) and the result is scaled back by `2^s`.  This
is exactly the rounding a binary64 multiplication applies to the exact
product of its operands (the magnitudes the engine computes are far from
the overflow and subnormal ranges, so exponent-range effects cannot
arise). -/
def fl53 (N : Nat) : Nat :=
  if N < 2 ^ 53 then N
  else
    let s := bitLen N - 53
    let n := N / 2 ^ s
    let r := N % 2 ^ s
    let half := 2 ^ (s - 1)
    let rounded := if half < r then n + 1
      else if r < half then n
      else if n % 2 = 0 then n else n + 1
    rounded * 2 ^ s

/-- `Math.floor(baseWeight * bellCurveMultiplier)` for a tier, where
`baseWeight = tier.quota`, computed as JavaScript computes it: the quota
(an integer, exactly representable as a double at every magnitude the
engine can reach) is multiplied by the binary64 value of the multiplier
literal, the exact product `quota * bellCurveMult52 id / 2^52` is rounded
to the nearest double by `fl53`, and `Math.floor` truncates the result
(truncating division by `2^52` on the non-negative rounded numerator).
The surrounding filter guarantees the quota is positive wherever the code
computes a weight, so clamping with `Int.toNat` is exact on every call the
code makes.  For example `Math.floor(90 * 0.7)` is `62`, not `63`: the
exact product `90 * 0.7 = 62.99999999999999644...` rounds down. -/
def tierWeight (t : Tier) : Int := (fl53 (t.quota.toNat * bellCurveMult52 t.id) / 2 ^ 52 : Nat)

/-- The cumulative-subtraction loop of `selectTierWeighted`:
`random -= tier.weight; if (random <= 0) return tier.id`.  The running
`random` value, a rational with fixed positive denominator `rngDen`, is
represented exactly by its numerator `r`, so each subtraction of a weight
`w` becomes a subtraction of `rngDen * w` and the comparison with `0` is
unchanged. -/
def pickW (r : Int) : List (Tier × Int) → Option Tier
  | [] => none
  | (t, w) :: rest => if r - rngDen * w ≤ 0 then some t else pickW (r - rngDen * w) rest

/-- `selectTierWeighted()`: filter tiers with remaining quota, weight them
with the floored bell-curve weights, draw `seededRandom() * totalWeight`
(represented by its numerator `rngNum seed * totalWeight` over `rngDen`)
and run the cumulative-subtraction loop, falling back to the first
available tier.  Returns the chosen tier id (or the thrown message)
together with the updated RNG seed. -/
def selectTierWeighted (remTiers : List Tier) (seed : Nat) :
    Except String String × Nat :=
  match remTiers.filter (fun t => decide (0 < t.quota)) with
  | [] => (.error "No available tiers with remaining quota", seed)
  | a :: rest =>
    let availableTiers := a :: rest
    let weightedTiers := availableTiers.map (fun t => (t, tierWeight t))
    let totalWeight : Int := (weightedTiers.map (fun p => p.2)).sum
    let random : Int := rngNum seed * totalWeight
    match pickW random weightedTiers with
    | some t => (.ok t.id, nextSeed seed)
    | none => (.ok a.id, nextSeed seed)

/-- `getTierById(tierId)`: first tier in the configuration with that id,
or a thrown `Unknown tier ID` error. -/
def getTierById (cfg : Config) (tierId : String) : Except String Tier :=
  match cfg.tiers.find? (fun t => t.id == tierId) with
  | some t => .ok t
  | none => .error ("Unknown tier ID: " ++ tierId)

/-- The cumulative-subtraction loop of `selectVariantsForTier`:
`random -= variant.quota; if (random <= 0) { selectedVariant = variant }`.
As in `pickW`, the running value is represented exactly by its numerator
over the fixed positive denominator `rngDen`. -/
def pickVariant (r : Int) : List Variant → Option Variant
  | [] => none
  | v :: rest =>
    if r - rngDen * v.quota ≤ 0 then some v else pickVariant (r - rngDen * v.quota) rest

/-- `selectVariantsForTier(targetTierId)`: for each trait in order, filter
variants matching the target tier with positive remaining quota (throwing a
trait-scoped exhaustion error when none), run the weighted cumulative draw
over them with a fresh `seededRandom()` value, falling back to the first
available variant.  The RNG seed advances once per trait processed before an
error, matching the mutation order of the source. -/
def selectVariantsForTier (remTraits : List TraitCfg) (targetTierId : String)
    (seed : Nat) : Except String (List Selection) × Nat :=
  match remTraits with
  | [] => (.ok [], seed)
  | tc :: rest =>
    match tc.variants.filter (fun v => v.tier == targetTierId && decide (0 < v.quota)) with
    | [] =>
      (.error ("No available variants for trait " ++ tc.trait ++ " in tier " ++ targetTierId),
       seed)
    | a :: more =>
      let availableVariants := a :: more
      let totalWeight : Int := (availableVariants.map (fun v => v.quota)).sum
      let random : Int := rngNum seed * totalWeight
      let selectedVariant := (pickVariant random availableVariants).getD a
      match selectVariantsForTier rest targetTierId (nextSeed seed) with
      | (.ok sels, s') => (.ok ({ trait := tc.trait, variant := selectedVariant } :: sels), s')
      | (.error e, s') => (.error e, s')

/-- `calculateScore(selectedVariants)`: sum of the selected variants'
point values. -/
def calculateScore (sels : List Selection) : Int :=
  (sels.map (fun s => s.variant.points)).sum

/-- `isScoreInTierRange(score, tierId)`: inclusive membership of the score
in the tier's `[min, max]` range; propagates the `Unknown tier ID` throw of
`getTierById`. -/
def isScoreInTierRange (cfg : Config) (score : Int) (tierId : String) :
    Except String Bool :=
  match getTierById cfg tierId with
  | .error e => .error e
  | .ok t => .ok (decide (t.scoreRange.1 ≤ score) && decide (score ≤ t.scoreRange.2))

/-- Index of the last element of `l` satisfying `p` — the semantics of a
JavaScript `Map` populated by iterating `l` in order with `set` (later
entries overwrite earlier ones). -/
def lastIdx (p : α → Bool) : List α → Option Nat
  | [] => none
  | a :: as =>
    match lastIdx p as with
    | some i => some (i + 1)
    | none => if p a then some 0 else none

/-- The `tierIdToIndex` map built by `buildLookupMaps` from the loaded
configuration. -/
def tierIdToIndex (cfg : Config) (tierId : String) : Option Nat :=
  lastIdx (fun t => t.id == tierId) cfg.tiers

/-- The `variantNameToTraitIndex` map built by `buildLookupMaps`: each
variant name maps to the index of the last trait containing it. -/
def variantNameToTraitIndex (cfg : Config) (name : String) : Option Nat :=
  lastIdx (fun tc => tc.variants.any (fun v => v.name == name)) cfg.traits

/-- In-place update of the element at index `i` (identity when out of
range), modelling a mutation of one array slot. -/
def modifyAt (f : α → α) : Nat → List α → List α
  | _, [] => []
  | 0, a :: as => f a :: as
  | n + 1, a :: as => a :: modifyAt f n as

/-- `variant.quota--` on one variant record. -/
def decVarQuota (v : Variant) : Variant := { v with quota := v.quota - 1 }

/-- `tier.quota--` on one tier record. -/
def decTierQuota (t : Tier) : Tier := { t with quota := t.quota - 1 }

/-- The `selectedVariants.forEach` loop of `decrementQuotas`: for each
selection look up its trait index in `variantNameToTraitIndex` and the first
matching variant index there, and decrement that quota.  A failed lookup
models the thrown `TypeError` of indexing `undefined`; mutations made by
earlier iterations persist (the returned list is the partially mutated
state). -/
def decrementVariantsRun (cfg : Config) (remTraits : List TraitCfg) :
    List Selection → Option String × List TraitCfg
  | [] => (none, remTraits)
  | sel :: rest =>
    match variantNameToTraitIndex cfg sel.variant.name with
    | none => (some "TypeError", remTraits)
    | some ti =>
      match remTraits.get? ti with
      | none => (some "TypeError", remTraits)
      | some tc =>
        match tc.variants.findIdx? (fun v => v.name == sel.variant.name) with
        | none => (some "TypeError", remTraits)
        | some vi =>
          decrementVariantsRun cfg
            (modifyAt (fun tc' => { tc' with variants := modifyAt decVarQuota vi tc'.variants })
              ti remTraits) rest

/-- `decrementQuotas(tierId, selectedVariants)`: decrement the tier quota at
the looked-up index, then decrement each selected variant's quota.  Returns
the (possibly partially) mutated counters together with the thrown message,
if any. -/
def decrementQuotas (cfg : Config) (remTiers : List Tier) (remTraits : List TraitCfg)
    (tierId : String) (sels : List Selection) :
    Option String × List Tier × List TraitCfg :=
  match tierIdToIndex cfg tierId with
  | none => (some "TypeError", remTiers, remTraits)
  | some k =>
    if k < remTiers.length then
      let remTiers' := modifyAt decTierQuota k remTiers
      let (e, remTraits') := decrementVariantsRun cfg remTraits sels
      (e, remTiers', remTraits')
    else (some "TypeError", remTiers, remTraits)

/-- Outcome of one iteration of the `generateNFT` retry loop's `try` block. -/
inductive AttemptOutcome where
  | committed (tierId tierName : String) (score : Int) (variants : List Selection)
  | outOfRange
  | errored (msg : String)
deriving DecidableEq, Repr

/-- One iteration of the `generateNFT` retry loop: tier selection, variant
selection, score computation, range check, and on success quota decrement
and result construction.  Thrown errors are caught by the surrounding
`try`/`catch`; state mutations made before the throw (RNG advances, partial
decrements) persist. -/
def attemptOnce (cfg : Config) (st : QState) : AttemptOutcome × QState :=
  match selectTierWeighted st.remTiers st.seed with
  | (.error e, s') => (.errored e, { st with seed := s' })
  | (.ok targetTierId, s') =>
    match selectVariantsForTier st.remTraits targetTierId s' with
    | (.error e, s'') => (.errored e, { st with seed := s'' })
    | (.ok selectedVariants, s'') =>
      let totalScore := calculateScore selectedVariants
      match isScoreInTierRange cfg totalScore targetTierId with
      | .error e => (.errored e, { st with seed := s'' })
      | .ok false => (.outOfRange, { st with seed := s'' })
      | .ok true =>
        match decrementQuotas cfg st.remTiers st.remTraits targetTierId selectedVariants with
        | (some e, rt, rv) => (.errored e, ⟨rt, rv, s''⟩)
        | (none, rt, rv) =>
          match getTierById cfg targetTierId with
          | .error e => (.errored e, ⟨rt, rv, s''⟩)
          | .ok tierInfo =>
            (.committed targetTierId tierInfo.name totalScore selectedVariants, ⟨rt, rv, s''⟩)

/-- The result object returned by `generateNFT`. -/
inductive GenerationResult where
  | ok (tierId tierName : String) (score : Int) (variants : List Selection) (attempts : Nat)
  | failed (error : String) (attempts : Nat)
deriving DecidableEq, Repr

/-- The failure message `Failed to generate NFT after ${maxRetries} attempts`. -/
def failMsg (maxRetries : Nat) : String :=
  "Failed to generate NFT after " ++ toString maxRetries ++ " attempts"

/-- The `while (attempts < maxRetries)` loop of `generateNFT`, written with
the remaining attempt budget `fuel = maxRetries - attempts` as the (purely
structural) recursion argument: the loop guard `attempts < maxRetries`
holds exactly when `fuel` is a successor, and each iteration increments
`attempts` while decrementing `fuel`. -/
def generateNFTLoop (cfg : Config) (maxRetries : Nat) :
    Nat → Nat → QState → GenerationResult × QState
  | 0, attempts, st => (.failed (failMsg maxRetries) attempts, st)
  | fuel + 1, attempts, st =>
    match attemptOnce cfg st with
    | (.committed tid tname score sels, st') => (.ok tid tname score sels (attempts + 1), st')
    | (.outOfRange, st') => generateNFTLoop cfg maxRetries fuel (attempts + 1) st'
    | (.errored _, st') => generateNFTLoop cfg maxRetries fuel (attempts + 1) st'

/-- `generateNFT(maxRetries = 100)`: run the retry loop starting from zero
attempts (full budget), returning the result together with the engine state
after the call. -/
def generateNFT (cfg : Config) (maxRetries : Nat) (st : QState) :
    GenerationResult × QState :=
  generateNFTLoop cfg maxRetries maxRetries 0 st

/-- Engine state immediately after `loadConfig`: deep copies of the
configured tier and trait quota records, with the constructor's fixed RNG
seed `42`. -/
def initState (cfg : Config) : QState := ⟨cfg.tiers, cfg.traits, 42⟩

/-- `n` sequential `generateNFT` calls with the default retry ceiling,
collecting the produced results in order. -/
def runEngine (cfg : Config) (st : QState) : Nat → List GenerationResult × QState
  | 0 => ([], st)
  | n + 1 =>
    let (r, st') := generateNFT cfg 100 st
    let (rs, st'') := runEngine cfg st' n
    (r :: rs, st'')

/-- The per-trait loop of `validateFinalGeneration`: throw at the first
trait that still has positive-quota variants, naming them. -/
def checkTraitVariants : List TraitCfg → Except String Unit
  | [] => .ok ()
  | tc :: rest =>
    let nonZero := tc.variants.filter (fun v => decide (0 < v.quota))
    if nonZero.isEmpty then checkTraitVariants rest
    else
      .error ("Trait " ++ tc.trait ++ " has variants with remaining quota: "
        ++ String.intercalate ", " (nonZero.map (fun v => v.name)))

/-- `validateFinalGeneration()`: recomputes `getGenerationStatus` (whose
`tierStatus` mapping throws a `TypeError` when a remaining tier's id has no
match in the configuration), then checks in order: nonzero total remaining,
tiers with positive remaining quota, and per-trait variants with positive
remaining quota; returns `true` when all checks pass. -/
def validateFinalGeneration (cfg : Config) (remTiers : List Tier)
    (remTraits : List TraitCfg) : Except String Bool :=
  if remTiers.all (fun t => cfg.tiers.any (fun c => c.id == t.id)) then
    let totalRemaining : Int := (remTiers.map (fun t => t.quota)).sum
    if totalRemaining ≠ 0 then
      .error ("Generation incomplete: " ++ toString totalRemaining ++ " NFTs remaining")
    else
      let nonZeroTiers := remTiers.filter (fun t => decide (0 < t.quota))
      if ¬ nonZeroTiers.isEmpty then
        .error ("Tiers with remaining quota: "
          ++ String.intercalate ", " (nonZeroTiers.map (fun t => t.id)))
      else
        match checkTraitVariants remTraits with
        | .error e => .error e
        | .ok _ => .ok true
  else .error "TypeError"

/-! ### Configuration validation (`validateConfig`)

`validateConfig` runs on the raw, just-parsed configuration object, whose
fields may be absent.  `Option` models a missing (`undefined`) field; for
string fields, `some ""` is also falsy under JavaScript's `!` test, and a
field that is present but not a number fails the `typeof` checks exactly
like an absent one, so both are modelled as `none`.  A JavaScript array is
truthy even when empty, so only the absent case fails the
`!this.config.tiers` / `!this.config.traits` test. -/

/-- A raw variant object as seen by `validateConfig`. -/
structure RawVariant where
  name : Option String
  tier : Option String
  points : Option Int
  quota : Option Int
deriving DecidableEq, Repr

/-- A raw trait object as seen by `validateConfig`. -/
structure RawTrait where
  trait : Option String
  variants : Option (List RawVariant)
deriving DecidableEq, Repr

/-- A raw tier object as seen by `validateConfig`. -/
structure RawTier where
  id : Option String
  scoreRange : Option (Int × Int)
  quota : Option Int
deriving DecidableEq, Repr

/-- A raw configuration document as seen by `validateConfig`. -/
structure RawConfig where
  collectionSize : Int
  tiers : Option (List RawTier)
  traits : Option (List RawTrait)
deriving DecidableEq, Repr

/-- JavaScript falsiness of an optional string: absent or empty. -/
def strFalsy : Option String → Bool
  | none => true
  | some s => s == ""

/-- The fixed list of expected trait names. -/
def expectedTraitNames : List String := ["socks", "shoes", "pants", "shirt", "face", "hat"]

/-- The tier loop of `validateConfig`: error at the first invalid tier,
otherwise the sum of the tier quotas. -/
def checkTiers : Nat → List RawTier → Except String Int
  | _, [] => .ok 0
  | index, t :: rest =>
    if strFalsy t.id || t.scoreRange.isNone || t.quota.isNone then
      .error ("Invalid tier at index " ++ toString index)
    else
      match checkTiers (index + 1) rest with
      | .error e => .error e
      | .ok s => .ok (t.quota.getD 0 + s)

/-- The inner variant loop of `validateConfig` for one trait: error at the
first invalid variant, otherwise the sum of the variant quotas. -/
def checkVariants (traitIndex : Nat) : Nat → List RawVariant → Except String Int
  | _, [] => .ok 0
  | variantIndex, v :: rest =>
    if strFalsy v.name || strFalsy v.tier || v.points.isNone || v.quota.isNone then
      .error ("Invalid variant at trait " ++ toString traitIndex ++ ", variant "
        ++ toString variantIndex)
    else
      match checkVariants traitIndex (variantIndex + 1) rest with
      | .error e => .error e
      | .ok s => .ok (v.quota.getD 0 + s)

/-- The trait loop of `validateConfig`: name check, 26-variant check, inner
variant loop, and the per-trait quota-sum warning.  Accumulates the warning
messages emitted by `console.warn`. -/
def checkTraits (collectionSize : Int) : Nat → List RawTrait → Except String (List String)
  | _, [] => .ok []
  | traitIndex, tr :: rest =>
    if !(match tr.trait with
        | some nm => decide (nm ∈ expectedTraitNames)
        | none => false) then
      .error ("Unexpected trait name: " ++ tr.trait.getD "undefined")
    else
      match tr.variants with
      | none => .error ("Trait " ++ tr.trait.getD "" ++ " must have exactly 26 variants")
      | some vs =>
        if vs.length ≠ 26 then
          .error ("Trait " ++ tr.trait.getD "" ++ " must have exactly 26 variants")
        else
          match checkVariants traitIndex 0 vs with
          | .error e => .error e
          | .ok totalVariantQuota =>
            match checkTraits collectionSize (traitIndex + 1) rest with
            | .error e => .error e
            | .ok ws =>
              if totalVariantQuota ≠ collectionSize then
                .ok (("Warning: trait " ++ tr.trait.getD "" ++ " total quota = "
                  ++ toString totalVariantQuota ++ ", expected "
                  ++ toString collectionSize) :: ws)
              else .ok ws

/-- `validateConfig()`: fails on absent tiers/traits, invalid tiers, a trait
count other than six, unexpected trait names, variant counts other than 26,
or invalid variants; on success returns the list of quota-sum warning
messages emitted along the way. -/
def validateConfig (cfg : RawConfig) : Except String (List String) :=
  match cfg.tiers, cfg.traits with
  | none, _ => .error "Invalid rarity config: missing tiers or traits"
  | _, none => .error "Invalid rarity config: missing tiers or traits"
  | some tiers, some traits =>
    match checkTiers 0 tiers with
    | .error e => .error e
    | .ok totalTierQuota =>
      let tierWarnings :=
        if totalTierQuota ≠ cfg.collectionSize then
          ["Warning: total tier quota = " ++ toString totalTierQuota ++ ", expected "
            ++ toString cfg.collectionSize]
        else []
      if traits.length ≠ expectedTraitNames.length then
        .error ("Expected " ++ toString expectedTraitNames.length ++ " traits, got "
          ++ toString traits.length)
      else
        match checkTraits cfg.collectionSize 0 traits with
        | .error e => .error e
        | .ok ws => .ok (tierWarnings ++ ws)

/-! ### Specification-side definitions

The following definitions restate, over exact rationals, the selection
procedure as the specification describes it, parameterized by the weight
function, so that the implementation can be compared against it with the
weights the specification claims and with the weights the code actually
uses. -/

/-- The specification's cumulative-weight draw, verbatim: subtract each
candidate's weight in configured order until the running remainder is
`≤ 0`; that candidate is chosen. -/
def specPickTier (weight : Tier → ℚ) (r : ℚ) : List Tier → Option String
  | [] => none
  | t :: ts => if r - weight t ≤ 0 then some t.id else specPickTier weight (r - weight t) ts

/-- The specification's tier selection: candidates are the tiers with
remaining quota `> 0`; a uniform value in `[0, totalWeight)` is drawn as
`seededRandom() * totalWeight`, and the cumulative draw picks the tier. -/
def specSelectTier (weight : Tier → ℚ) (remTiers : List Tier) (seed : Nat) : Option String :=
  specPickTier weight
    (rngValue seed * ((remTiers.filter (fun t => decide (0 < t.quota))).map weight).sum)
    (remTiers.filter (fun t => decide (0 < t.quota)))

/-- The weight the claim asserts:
`remainingTier(tier) × biasMultiplier(tier)`, with no rounding. -/
def specTierWeight (t : Tier) : ℚ := (t.quota : ℚ) * bellCurveMultiplier t.id

/-- Integer mirror of `specPickTier` for weights with a fixed positive
denominator (used to evaluate the rational spec draw exactly). -/
def intPickTier (w : Tier → Int) (r : Int) : List Tier → Option String
  | [] => none
  | t :: ts => if r - w t ≤ 0 then some t.id else intPickTier w (r - w t) ts

/-! ### Well-formedness predicates and frame descriptions -/

/-- The quota-independent part of a tier record. -/
def Tier.shape (t : Tier) : String × String × (Int × Int) := (t.id, t.name, t.scoreRange)

/-- The quota-independent part of a variant record. -/
def Variant.key (v : Variant) : String × String × Int := (v.name, v.tier, v.points)

/-- The quota-independent part of a trait record. -/
def TraitCfg.shape (tc : TraitCfg) : String × List (String × String × Int) :=
  (tc.trait, tc.variants.map Variant.key)

/-- A quota state is well-formed for a configuration when its remaining
tier and trait records coincide with the configuration's except possibly in
the quota counters — exactly the relationship `loadConfig` establishes and
quota decrements maintain. -/
def WFState (cfg : Config) (st : QState) : Prop :=
  st.remTiers.map Tier.shape = cfg.tiers.map Tier.shape ∧
  st.remTraits.map TraitCfg.shape = cfg.traits.map TraitCfg.shape

/-- Tier ids are pairwise distinct. -/
def tierIdsUnique (cfg : Config) : Prop := (cfg.tiers.map (fun t => t.id)).Nodup

/-- Variant names are pairwise distinct across the whole configuration. -/
def variantNamesUnique (cfg : Config) : Prop :=
  ((cfg.traits.map (fun tc => tc.variants.map (fun v => v.name))).flatten).Nodup

/-- All remaining counters of a quota state are non-negative. -/
def quotasNonneg (st : QState) : Prop :=
  (∀ t ∈ st.remTiers, 0 ≤ t.quota) ∧
  ∀ tc ∈ st.remTraits, ∀ v ∈ tc.variants, 0 ≤ v.quota

/-- Frame description of the tier decrement: the tier with the committed id
loses one unit of quota, every other tier is untouched. -/
def decTierById (tid : String) (t : Tier) : Tier :=
  if t.id = tid then decTierQuota t else t

/-- Frame description of the variant decrement: exactly the variants whose
names were selected lose one unit of quota, every other variant is
untouched. -/
def decBySelected (names : List String) (tc : TraitCfg) : TraitCfg :=
  { tc with variants := tc.variants.map (fun v => if v.name ∈ names then decVarQuota v else v) }

/-- Frame description of a single selected variant's decrement: exactly the
variants bearing the selected name lose one unit of quota. -/
def decByName (n : String) (tc : TraitCfg) : TraitCfg :=
  { tc with variants := tc.variants.map (fun v => if v.name = n then decVarQuota v else v) }

/-! ### Validity predicates for raw configurations -/

/-- The per-tier conditions `validateConfig` checks. -/
def rawTierValid (t : RawTier) : Prop :=
  strFalsy t.id = false ∧ t.scoreRange.isSome = true ∧ t.quota.isSome = true

/-- The per-variant conditions `validateConfig` checks. -/
def rawVariantValid (v : RawVariant) : Prop :=
  strFalsy v.name = false ∧ strFalsy v.tier = false ∧
  v.points.isSome = true ∧ v.quota.isSome = true

/-- The per-trait conditions `validateConfig` checks. -/
def rawTraitValid (tr : RawTrait) : Prop :=
  (∃ nm, tr.trait = some nm ∧ nm ∈ expectedTraitNames) ∧
  ∃ vs, tr.variants = some vs ∧ vs.length = 26 ∧ ∀ v ∈ vs, rawVariantValid v

/-- The conditions under which `validateConfig` succeeds. -/
def rawConfigValid (cfg : RawConfig) : Prop :=
  ∃ tiers traits, cfg.tiers = some tiers ∧ cfg.traits = some traits ∧
    (∀ t ∈ tiers, rawTierValid t) ∧ traits.length = 6 ∧ ∀ tr ∈ traits, rawTraitValid tr

/-! ### Concrete data used in witnesses and counterexamples -/

/-- A one-variant, one-tier configuration on which generation succeeds. -/
def sampleVariant : Variant := { name := "V1", tier := "T5", points := 5, quota := 1 }

/-- The single tier of the sample configuration. -/
def sampleTier : Tier := { id := "T5", name := "Common", scoreRange := (0, 10), quota := 1 }

/-- The single trait of the sample configuration. -/
def sampleTrait : TraitCfg := { trait := "socks", variants := [sampleVariant] }

/-- A minimal well-formed configuration on which `generateNFT` commits on
its first attempt. -/
def sampleConfig : Config :=
  { collectionSize := 1, tiers := [sampleTier], traits := [sampleTrait] }

/-- A configuration whose only tier has zero quota, so every generation
attempt fails with the tier-exhaustion error. -/
def exhaustedConfig : Config :=
  { collectionSize := 1
  , tiers := [{ id := "T5", name := "Common", scoreRange := (0, 10), quota := 0 }]
  , traits := [sampleTrait] }

/-- First tier of the weighting counterexample: an extreme tier with one
remaining unit, whose floored weight `⌊1 × 0.5⌋ = 0` differs from the
specified weight `0.5`. -/
def cxTierA : Tier := { id := "T1", name := "Ultra", scoreRange := (0, 10), quota := 1 }

/-- Second tier of the weighting counterexample. -/
def cxTierB : Tier := { id := "T5", name := "Common", scoreRange := (0, 10), quota := 1 }

/-- Configuration for the completion-validator counterexample: one tier and
one variant, both still holding one unit of remaining quota. -/
def c7Config : Config :=
  { collectionSize := 1
  , tiers := [{ id := "T1", name := "Ultra", scoreRange := (0, 0), quota := 1 }]
  , traits := [{ trait := "socks", variants := [{ name := "V1", tier := "T1", points := 0, quota := 1 }] }] }

/-- A variant named `A` of tier `T5` with one remaining unit, used in two
different traits of `dupConfig` at once. -/
def dupVariant : Variant := { name := "A", tier := "T5", points := 0, quota := 1 }

/-- A configuration in which the variant name `A` appears in **two** traits
(`socks` and `shoes`) — `validateConfig` accepts such configurations, since
it never compares names across traits.  The name-keyed decrement maps of
`buildLookupMaps` collapse both namesakes to a single key: the
`variantNameToTraitIndex` entry for `A` points at the **last** trait that
declares it (`shoes`), so every decrement of a variant named `A` lands on
the `shoes` copy regardless of which trait's variant was chosen. -/
def dupConfig : Config :=
  { collectionSize := 1
  , tiers := [{ id := "T5", name := "Common", scoreRange := (0, 10), quota := 1 }]
  , traits := [{ trait := "socks", variants := [dupVariant] }
             , { trait := "shoes", variants := [dupVariant] }] }

/-- A namesake of `dupVariant` sitting in a different tier (`T9`) with no
remaining quota: never selectable for a `T5` generation, but the first
variant named `A` in its trait, so the name-keyed decrement finds it. -/
def dupVariantT9 : Variant := { name := "A", tier := "T9", points := 0, quota := 0 }

/-- The variant the `shoes` trait actually offers for tier `T5`. -/
def dupVariantB : Variant := { name := "B", tier := "T5", points := 0, quota := 1 }

/-- A configuration in which the `shoes` trait carries an exhausted
(`quota = 0`) namesake of the `socks` variant `A`: the selector can only
ever pick `socks.A` and `shoes.B`, yet committing decrements the
zero-quota `shoes.A`, because the name-keyed lookup resolves `A` to the
last trait declaring it and the index lookup takes the first name match
there. -/
def dupZeroConfig : Config :=
  { collectionSize := 1
  , tiers := [{ id := "T5", name := "Common", scoreRange := (0, 10), quota := 1 }]
  , traits := [{ trait := "socks", variants := [dupVariant] }
             , { trait := "shoes", variants := [dupVariantT9, dupVariantB] }] }

/-- A raw variant accepted by every check of `validateConfig`. -/
def okRawVariant : RawVariant :=
  { name := some "v", tier := some "T1", points := some 0, quota := some 0 }

/-- A raw trait with the expected 26 valid variants. -/
def mkOkRawTrait (nm : String) : RawTrait :=
  { trait := some nm, variants := some (List.replicate 26 okRawVariant) }

/-- A raw configuration with an **empty** tier list and six fully valid
traits: every `validateConfig` check passes (a JavaScript empty array is
truthy, and an empty `forEach` runs no per-tier checks), with only the
tier-quota-sum warning emitted. -/
def emptyTiersRawConfig : RawConfig :=
  { collectionSize := 5
  , tiers := some []
  , traits := some (expectedTraitNames.map mkOkRawTrait) }

/-! ### Helper lemmas about the selection loops -/

/-- A tier returned by the cumulative-subtraction loop is one of the
candidates. -/
theorem pickW_mem {r : Int} {l : List (Tier × Int)} {t : Tier}
    (h : pickW r l = some t) : ∃ w, (t, w) ∈ l := by
  induction l generalizing r with
  | nil => simp [pickW] at h
  | cons p rest ih =>
    obtain ⟨t', w⟩ := p
    by_cases hc : r - rngDen * w ≤ 0
    · simp [pickW, hc] at h
      exact ⟨w, by simp [h]⟩
    · simp [pickW, hc] at h
      obtain ⟨w', hw⟩ := ih h
      exact ⟨w', List.mem_cons_of_mem _ hw⟩

/-- A variant returned by the cumulative-subtraction loop is one of the
candidates. -/
theorem pickVariant_mem {r : Int} {l : List Variant} {v : Variant}
    (h : pickVariant r l = some v) : v ∈ l := by
  induction l generalizing r with
  | nil => simp [pickVariant] at h
  | cons a rest ih =>
    by_cases hc : r - rngDen * a.quota ≤ 0
    · simp [pickVariant, hc] at h
      simp [h]
    · simp [pickVariant, hc] at h
      exact List.mem_cons_of_mem _ (ih h)

/-- The tier id returned by `selectTierWeighted` belongs to a remaining
tier with strictly positive quota, and the RNG seed advances once. -/
theorem selectTierWeighted_ok {remTiers : List Tier} {seed : Nat} {tid : String} {s' : Nat}
    (h : selectTierWeighted remTiers seed = (.ok tid, s')) :
    (∃ t ∈ remTiers, t.id = tid ∧ 0 < t.quota) ∧ s' = nextSeed seed := by
  unfold selectTierWeighted at h
  cases hf : remTiers.filter (fun t => decide (0 < t.quota)) with
  | nil => rw [hf] at h; simp at h
  | cons a rest =>
    rw [hf] at h
    simp only at h
    have hmem : ∀ t ∈ a :: rest, t ∈ remTiers ∧ 0 < t.quota := by
      intro t ht
      have : t ∈ remTiers.filter (fun t => decide (0 < t.quota)) := hf ▸ ht
      have := List.mem_filter.mp this
      exact ⟨this.1, by simpa using this.2⟩
    cases hp : pickW (rngNum seed * ((a :: rest).map (fun t => (t, tierWeight t)) |>.map
        (fun p => p.2)).sum) ((a :: rest).map (fun t => (t, tierWeight t))) with
    | some t =>
      rw [hp] at h
      obtain ⟨heq, hs⟩ := Prod.mk.injEq .. ▸ h
      obtain ⟨w, hw⟩ := pickW_mem hp
      obtain ⟨u, hu, huw⟩ := List.mem_map.mp hw
      obtain ⟨hu1, hu2⟩ := hmem u hu
      have ht : u = t := congrArg Prod.fst huw
      refine ⟨⟨u, hu1, ?_, hu2⟩, hs.symm ▸ rfl⟩
      · cases heq; cases ht; rfl
    | none =>
      rw [hp] at h
      obtain ⟨heq, hs⟩ := Prod.mk.injEq .. ▸ h
      obtain ⟨ha1, ha2⟩ := hmem a (List.mem_cons_self a rest)
      cases heq
      exact ⟨⟨a, ha1, rfl, ha2⟩, hs.symm ▸ rfl⟩

/-- Structural characterization of a successful `selectVariantsForTier`
call: one selection per trait, in order, each selection carrying the
trait's name and a variant of that trait that matches the target tier and
has strictly positive remaining quota. -/
theorem selectVariantsForTier_ok {remTraits : List TraitCfg} {tid : String} {seed : Nat}
    {sels : List Selection} {s' : Nat}
    (h : selectVariantsForTier remTraits tid seed = (.ok sels, s')) :
    List.Forall₂ (fun tc sel => sel.trait = tc.trait ∧ sel.variant ∈ tc.variants ∧
      sel.variant.tier = tid ∧ 0 < sel.variant.quota) remTraits sels := by
  induction remTraits generalizing seed sels s' with
  | nil =>
    unfold selectVariantsForTier at h
    obtain ⟨h1, _⟩ := Prod.mk.injEq .. ▸ h
    cases h1
    exact List.Forall₂.nil
  | cons tc rest ih =>
    unfold selectVariantsForTier at h
    cases hf : tc.variants.filter (fun v => v.tier == tid && decide (0 < v.quota)) with
    | nil => rw [hf] at h; simp at h
    | cons a more =>
      rw [hf] at h
      simp only at h
      have hmem : ∀ v ∈ a :: more, v ∈ tc.variants ∧ v.tier = tid ∧ 0 < v.quota := by
        intro v hv
        have : v ∈ tc.variants.filter (fun v => v.tier == tid && decide (0 < v.quota)) :=
          hf ▸ hv
        have := List.mem_filter.mp this
        refine ⟨this.1, ?_, ?_⟩
        · have := this.2
          simp only [Bool.and_eq_true, beq_iff_eq, decide_eq_true_eq] at this
          exact this.1
        · have := this.2
          simp only [Bool.and_eq_true, beq_iff_eq, decide_eq_true_eq] at this
          exact this.2
      cases hrec : selectVariantsForTier rest tid (nextSeed seed) with
      | mk res s'' =>
        cases res with
        | error e => rw [hrec] at h; simp at h
        | ok sels' =>
          rw [hrec] at h
          simp only at h
          obtain ⟨h1, h2⟩ := Prod.mk.injEq .. ▸ h
          cases h1
          have hsel : (pickVariant (rngNum seed *
              ((a :: more).map (fun v => v.quota)).sum) (a :: more)).getD a ∈ a :: more := by
            cases hp : pickVariant (rngNum seed *
                ((a :: more).map (fun v => v.quota)).sum) (a :: more) with
            | none => simp [Option.getD]
            | some v => simpa [Option.getD] using pickVariant_mem hp
          obtain ⟨hm, htr, hq⟩ := hmem _ hsel
          exact List.Forall₂.cons ⟨rfl, hm, htr, hq⟩ (ih hrec)

/-- Every member of the right list of a `Forall₂` is related to some member
of the left list. -/
theorem forall₂_mem_right {R : α → β → Prop} {as : List α} {bs : List β}
    (h : List.Forall₂ R as bs) : ∀ b ∈ bs, ∃ a ∈ as, R a b := by
  induction h with
  | nil => intro b hb; cases hb
  | cons hrel _ ih =>
    intro b hb
    rcases List.mem_cons.mp hb with hb | hb
    · exact ⟨_, List.mem_cons_self .., hb ▸ hrel⟩
    · obtain ⟨a, ha, hr⟩ := ih b hb
      exact ⟨a, List.mem_cons_of_mem _ ha, hr⟩

/-- A successful variant selection lists the traits' names in order. -/
theorem selectVariantsForTier_trait_names {remTraits : List TraitCfg} {tid : String}
    {seed : Nat} {sels : List Selection} {s' : Nat}
    (h : selectVariantsForTier remTraits tid seed = (.ok sels, s')) :
    sels.map (fun s => s.trait) = remTraits.map (fun tc => tc.trait) := by
  have hf := selectVariantsForTier_ok h
  clear h
  induction hf with
  | nil => rfl
  | cons hrel _ ih => simp only [List.map_cons, ih, hrel.1]

/-- C3 (amended): for every quota state and every target tier, every
selection in a successful `selectVariantsForTier` result — including any
produced by the post-loop fallback branch — has remaining quota strictly
greater than 0 at the moment of selection (and matches the target tier),
so a variant whose remaining quota is 0 is never returned by the variant
selector.  The claim's further "and hence never committed" consequence is
only true of the selected snapshots: the counter the commit step actually
decrements is found by name, and with a variant name duplicated across
traits it can belong to a zero-quota namesake (see the counterexample). -/
theorem C3_no_zero_quota_selected {remTraits : List TraitCfg} {tid : String}
    {seed : Nat} {sels : List Selection} {s' : Nat}
    (h : selectVariantsForTier remTraits tid seed = (.ok sels, s')) :
    ∀ sel ∈ sels, 0 < sel.variant.quota ∧ sel.variant.tier = tid := by
  intro sel hsel
  obtain ⟨tc, _, hrel⟩ := forall₂_mem_right (selectVariantsForTier_ok h) sel hsel
  exact ⟨hrel.2.2.2, hrel.2.2.1⟩

/-- Witness for C3 at a concrete state: the call succeeds and the selected
variant has positive remaining quota. -/
theorem C3_witness :
    selectVariantsForTier [sampleTrait] "T5" 42 =
      (.ok [{ trait := "socks", variant := sampleVariant }], nextSeed 42) ∧
    ∀ sel ∈ [Selection.mk "socks" sampleVariant],
      0 < sel.variant.quota ∧ sel.variant.tier = "T5" :=
  ⟨rfl, @C3_no_zero_quota_selected [sampleTrait] "T5" 42
    [{ trait := "socks", variant := sampleVariant }] (nextSeed 42) rfl⟩

/-- Counterexample for C3's "and hence never committed" consequence: on
`dupZeroConfig` the selector only ever returns positive-quota variants
(`socks.A` with quota 1 and `shoes.B` with quota 1), the attempt commits,
and yet the commit decrements the variant `shoes.A` — whose remaining
quota is 0 at that moment — to `-1`, because the name-keyed lookup for
`A` resolves to the last trait declaring the name and the first name
match inside it.  The chosen `socks.A` keeps its counter. -/
theorem C3_counterexample :
    (attemptOnce dupZeroConfig (initState dupZeroConfig)).1
      = .committed "T5" "Common" 0
          [{ trait := "socks", variant := dupVariant }
          , { trait := "shoes", variant := dupVariantB }] ∧
    (∀ sel ∈ [Selection.mk "socks" dupVariant, Selection.mk "shoes" dupVariantB],
      0 < sel.variant.quota) ∧
    ((attemptOnce dupZeroConfig (initState dupZeroConfig)).2).remTraits
      = [{ trait := "socks", variants := [dupVariant] }
        , { trait := "shoes", variants :=
            [{ name := "A", tier := "T9", points := 0, quota := -1 }
            , { name := "B", tier := "T5", points := 0, quota := 0 }] }] :=
  ⟨rfl, by decide, rfl⟩

/-! ### The cumulative draw always terminates inside the loop -/

theorem rngDen_pos : (0 : Int) < rngDen := by norm_num [rngDen]

theorem rngNum_nonneg (s : Nat) : 0 ≤ rngNum s := Int.ofNat_nonneg _

theorem rngNum_lt_den (s : Nat) : rngNum s < rngDen := by
  have h : nextSeed s < 233280 := Nat.mod_lt _ (by norm_num)
  unfold rngNum rngDen
  exact_mod_cast h

theorem bellMult10_pos (id : String) : 0 < bellMult10 id := by
  unfold bellMult10
  repeat' split
  all_goals norm_num

theorem tierWeight_nonneg {t : Tier} (h : 0 < t.quota) : 0 ≤ tierWeight t := by
  unfold tierWeight
  exact Int.ofNat_nonneg _

/-- With non-negative weights and a running value that is non-positive or
strictly below the (scaled) total weight, the tier draw finds a candidate. -/
theorem pickW_isSome :
    ∀ (l : List (Tier × Int)), l ≠ [] → (∀ p ∈ l, 0 ≤ p.2) →
    ∀ r : Int, (r ≤ 0 ∨ r < rngDen * (l.map (fun p => p.2)).sum) →
    (pickW r l).isSome = true := by
  intro l
  induction l with
  | nil => intro h; exact absurd rfl h
  | cons p rest ih =>
    intro _ hw r hr
    obtain ⟨t, w⟩ := p
    by_cases hc : r - rngDen * w ≤ 0
    · simp [pickW, hc]
    · push_neg at hc
      have hw0 : 0 ≤ w := hw (t, w) (List.mem_cons_self ..)
      have hdw : 0 ≤ rngDen * w := mul_nonneg rngDen_pos.le hw0
      have hrest : ∀ p ∈ rest, 0 ≤ p.2 := fun p hp => hw p (List.mem_cons_of_mem _ hp)
      have hsum : (((t, w) :: rest).map (fun p => p.2)).sum
          = w + (rest.map (fun p => p.2)).sum := by simp
      have hr' : r - rngDen * w < rngDen * (rest.map (fun p => p.2)).sum := by
        rcases hr with hr | hr
        · linarith
        · rw [hsum, mul_add] at hr; linarith
      have hne : rest ≠ [] := by
        rintro rfl
        simp only [List.map_nil, List.sum_nil, mul_zero] at hr'
        linarith
      have : pickW r ((t, w) :: rest) = pickW (r - rngDen * w) rest := by
        simp [pickW, not_le.mpr (by linarith : (0:Int) < r - rngDen * w)]
      rw [this]
      exact ih hne hrest _ (Or.inr hr')

/-- With non-negative quotas as weights, the variant draw finds a
candidate. -/
theorem pickVariant_isSome :
    ∀ (l : List Variant), l ≠ [] → (∀ v ∈ l, 0 ≤ v.quota) →
    ∀ r : Int, (r ≤ 0 ∨ r < rngDen * (l.map (fun v => v.quota)).sum) →
    (pickVariant r l).isSome = true := by
  intro l
  induction l with
  | nil => intro h; exact absurd rfl h
  | cons v rest ih =>
    intro _ hw r hr
    by_cases hc : r - rngDen * v.quota ≤ 0
    · simp [pickVariant, hc]
    · push_neg at hc
      have hw0 : 0 ≤ v.quota := hw v (List.mem_cons_self ..)
      have hdw : 0 ≤ rngDen * v.quota := mul_nonneg rngDen_pos.le hw0
      have hrest : ∀ u ∈ rest, 0 ≤ u.quota := fun u hu => hw u (List.mem_cons_of_mem _ hu)
      have hsum : ((v :: rest).map (fun u => u.quota)).sum
          = v.quota + (rest.map (fun u => u.quota)).sum := by simp
      have hr' : r - rngDen * v.quota < rngDen * (rest.map (fun u => u.quota)).sum := by
        rcases hr with hr | hr
        · linarith
        · rw [hsum, mul_add] at hr; linarith
      have hne : rest ≠ [] := by
        rintro rfl
        simp only [List.map_nil, List.sum_nil, mul_zero] at hr'
        linarith
      have : pickVariant r (v :: rest) = pickVariant (r - rngDen * v.quota) rest := by
        simp [pickVariant, not_le.mpr (by linarith : (0:Int) < r - rngDen * v.quota)]
      rw [this]
      exact ih hne hrest _ (Or.inr hr')

/-- The scaled running value drawn from the RNG is non-positive or strictly
below the scaled total, for any non-negative total weight. -/
theorem draw_in_range (seed : Nat) {w : Int} (hw : 0 ≤ w) :
    rngNum seed * w ≤ 0 ∨ rngNum seed * w < rngDen * w := by
  rcases lt_or_eq_of_le hw with hw' | hw'
  · exact Or.inr (mul_lt_mul_of_pos_right (rngNum_lt_den seed) hw')
  · exact Or.inl (by rw [← hw', mul_zero])

/-- C10: whenever the candidate set is non-empty, the cumulative-weight
subtraction loops of `selectTierWeighted` and `selectVariantsForTier`
always choose a candidate (the drawn value is strictly below the total
weight, or the total weight is zero and the first subtraction already
reaches `≤ 0`), so the post-loop fallback branches returning the first
available candidate are unreachable. -/
theorem C10_fallback_unreachable :
    (∀ (remTiers : List Tier) (seed : Nat) (a : Tier) (rest : List Tier),
      remTiers.filter (fun t => decide (0 < t.quota)) = a :: rest →
      (pickW (rngNum seed * (((a :: rest).map (fun t => (t, tierWeight t))).map
          (fun p => p.2)).sum)
        ((a :: rest).map (fun t => (t, tierWeight t)))).isSome = true) ∧
    (∀ (vs : List Variant) (tid : String) (seed : Nat) (a : Variant) (rest : List Variant),
      vs.filter (fun v => v.tier == tid && decide (0 < v.quota)) = a :: rest →
      (pickVariant (rngNum seed * ((a :: rest).map (fun v => v.quota)).sum)
        (a :: rest)).isSome = true) := by
  constructor
  · intro remTiers seed a rest hf
    have hpos : ∀ t ∈ a :: rest, 0 < t.quota := by
      intro t ht
      have : t ∈ remTiers.filter (fun t => decide (0 < t.quota)) := hf ▸ ht
      simpa using (List.mem_filter.mp this).2
    have hwts : ∀ p ∈ (a :: rest).map (fun t => (t, tierWeight t)), 0 ≤ p.2 := by
      intro p hp
      obtain ⟨t, ht, rfl⟩ := List.mem_map.mp hp
      exact tierWeight_nonneg (hpos t ht)
    have hsum : 0 ≤ ((((a :: rest).map (fun t => (t, tierWeight t))).map
        (fun p => p.2)).sum) :=
      List.sum_nonneg (by intro x hx; obtain ⟨p, hp, rfl⟩ := List.mem_map.mp hx; exact hwts p hp)
    exact pickW_isSome _ (by simp) hwts _ (draw_in_range seed hsum)
  · intro vs tid seed a rest hf
    have hpos : ∀ v ∈ a :: rest, 0 < v.quota := by
      intro v hv
      have : v ∈ vs.filter (fun v => v.tier == tid && decide (0 < v.quota)) := hf ▸ hv
      have h2 := (List.mem_filter.mp this).2
      simp only [Bool.and_eq_true, decide_eq_true_eq] at h2
      exact h2.2
    have hwts : ∀ v ∈ a :: rest, 0 ≤ v.quota := fun v hv => (hpos v hv).le
    have hsum : 0 ≤ (((a :: rest).map (fun v => v.quota)).sum) :=
      List.sum_nonneg (by intro x hx; obtain ⟨v, hv, rfl⟩ := List.mem_map.mp hx; exact hwts v hv)
    exact pickVariant_isSome _ (by simp) hwts _ (draw_in_range seed hsum)

/-- Witness for C10 at concrete candidate lists produced by the filters. -/
theorem C10_witness :
    (pickW (rngNum 42 * ((([sampleTier]).map (fun t => (t, tierWeight t))).map
        (fun p => p.2)).sum)
      (([sampleTier]).map (fun t => (t, tierWeight t)))).isSome = true ∧
    (pickVariant (rngNum 42 * (([sampleVariant]).map (fun v => v.quota)).sum)
      [sampleVariant]).isSome = true :=
  ⟨C10_fallback_unreachable.1 [sampleTier] 42 sampleTier [] rfl,
   C10_fallback_unreachable.2 [sampleVariant] "T5" 42 sampleVariant [] rfl⟩

/-! ### Determinism (C6) -/

/-- C6: two engines loaded with identical configurations start from
identical states (the constructor fixes the RNG seed at 42 and `loadConfig`
derives the quota state from the configuration alone), and the engine's
only randomness source is the seeded generator carried in that state, so
any equal number of `generateNFT` calls produces identical sequences of
results — every field of every result agrees. -/
theorem C6_determinism (cfg1 cfg2 : Config) (n : Nat) (h : cfg1 = cfg2) :
    (runEngine cfg1 (initState cfg1) n).1 = (runEngine cfg2 (initState cfg2) n).1 := by
  rw [h]

/-- Witness for C6 with two copies of the sample configuration and two
generation calls each. -/
theorem C6_witness :
    (runEngine sampleConfig (initState sampleConfig) 2).1 =
      (runEngine sampleConfig (initState sampleConfig) 2).1 :=
  C6_determinism sampleConfig sampleConfig 2 rfl

/-! ### Retry budget and failure result (C5) -/

/-- Attempt-count bounds for the retry loop: a success carries an attempt
count in `(attempts, attempts + fuel]`; exhausting the budget yields the
fixed failure message and the final attempt count. -/
theorem generateNFTLoop_bounds (cfg : Config) (mr : Nat) :
    ∀ (fuel attempts : Nat) (st : QState),
    (∀ tid tn sc sels a stF,
        generateNFTLoop cfg mr fuel attempts st = (.ok tid tn sc sels a, stF) →
        attempts < a ∧ a ≤ attempts + fuel) ∧
    (∀ e a stF, generateNFTLoop cfg mr fuel attempts st = (.failed e a, stF) →
        a = attempts + fuel ∧ e = failMsg mr) := by
  intro fuel
  induction fuel with
  | zero =>
    intro attempts st
    constructor
    · intro tid tn sc sels a stF h
      simp [generateNFTLoop] at h
    · intro e a stF h
      unfold generateNFTLoop at h
      obtain ⟨h1, _⟩ := Prod.mk.injEq .. ▸ h
      cases h1
      exact ⟨rfl, rfl⟩
  | succ fuel ih =>
    intro attempts st
    constructor
    · intro tid tn sc sels a stF h
      unfold generateNFTLoop at h
      cases hA : attemptOnce cfg st with
      | mk out st' =>
        rw [hA] at h
        cases out with
        | committed t1 t2 t3 t4 =>
          simp only at h
          obtain ⟨h1, _⟩ := Prod.mk.injEq .. ▸ h
          cases h1
          omega
        | outOfRange =>
          simp only at h
          have := (ih (attempts + 1) st').1 tid tn sc sels a stF h
          omega
        | errored e =>
          simp only at h
          have := (ih (attempts + 1) st').1 tid tn sc sels a stF h
          omega
    · intro e a stF h
      unfold generateNFTLoop at h
      cases hA : attemptOnce cfg st with
      | mk out st' =>
        rw [hA] at h
        cases out with
        | committed t1 t2 t3 t4 => simp at h
        | outOfRange =>
          simp only at h
          have := (ih (attempts + 1) st').2 e a stF h
          exact ⟨by omega, this.2⟩
        | errored e' =>
          simp only at h
          have := (ih (attempts + 1) st').2 e a stF h
          exact ⟨by omega, this.2⟩

/-- C5 (amended): `generateNFT` makes at most `maxRetries` attempts — a
successful result reports between 1 and `maxRetries` attempts; an
unsuccessful run returns (never throws) a failed `GenerationResult` whose
attempt count is exactly `maxRetries` and whose error field is the fixed
message naming that count (the last per-attempt error is not carried); and
any attempt that ends in a caught error is counted against the budget and
retried from the updated state rather than propagated. -/
theorem C5_retry_budget (cfg : Config) (maxRetries : Nat) (st : QState) :
    (∀ tid tn sc sels a stF,
        generateNFT cfg maxRetries st = (.ok tid tn sc sels a, stF) →
        1 ≤ a ∧ a ≤ maxRetries) ∧
    (∀ e a stF, generateNFT cfg maxRetries st = (.failed e a, stF) →
        a = maxRetries ∧ e = failMsg maxRetries) ∧
    (∀ (fuel attempts : Nat) (st₀ : QState) (e : String) (st₁ : QState),
        attemptOnce cfg st₀ = (.errored e, st₁) →
        generateNFTLoop cfg maxRetries (fuel + 1) attempts st₀ =
          generateNFTLoop cfg maxRetries fuel (attempts + 1) st₁) := by
  refine ⟨?_, ?_, ?_⟩
  · intro tid tn sc sels a stF h
    have := (generateNFTLoop_bounds cfg maxRetries maxRetries 0 st).1 tid tn sc sels a stF h
    omega
  · intro e a stF h
    have := (generateNFTLoop_bounds cfg maxRetries maxRetries 0 st).2 e a stF h
    exact ⟨by omega, this.2⟩
  · intro fuel attempts st₀ e st₁ h
    have hstep : generateNFTLoop cfg maxRetries (fuel + 1) attempts st₀ =
        match attemptOnce cfg st₀ with
        | (.committed tid tname score sels, st') =>
          (.ok tid tname score sels (attempts + 1), st')
        | (.outOfRange, st') => generateNFTLoop cfg maxRetries fuel (attempts + 1) st'
        | (.errored _, st') => generateNFTLoop cfg maxRetries fuel (attempts + 1) st' := rfl
    rw [hstep, h]

/-- Witness for C5: a run out of budget at a concrete exhausted state,
yielding exactly the fixed failure message and the full attempt count. -/
theorem C5_witness :
    (3 : Nat) = 3 ∧ "Failed to generate NFT after 3 attempts" = failMsg 3 :=
  (C5_retry_budget exhaustedConfig 3 (initState exhaustedConfig)).2.1
    "Failed to generate NFT after 3 attempts" 3
    (generateNFT exhaustedConfig 3 (initState exhaustedConfig)).2 rfl

/-- Counterexample for C5 as stated: in a state where every attempt fails
with the tier-exhaustion error, the failed result does **not** carry that
last error — its error field is the fixed retry-ceiling message, which does
not even contain the exhaustion message. -/
theorem C5_counterexample :
    (attemptOnce exhaustedConfig (initState exhaustedConfig)).1 =
      .errored "No available tiers with remaining quota" ∧
    (generateNFT exhaustedConfig 3 (initState exhaustedConfig)).1 =
      .failed "Failed to generate NFT after 3 attempts" 3 ∧
    ¬ ("No available tiers with remaining quota".data <:+:
        "Failed to generate NFT after 3 attempts".data) :=
  ⟨rfl, rfl, by decide⟩

/-! ### The tier-weighting claim (C4) -/

theorem bellMult10_eq (id : String) :
    bellCurveMultiplier id = (bellMult10 id : ℚ) / 10 := by
  unfold bellCurveMultiplier bellMult10
  repeat' split
  all_goals norm_num

/-- Scaling every weight and the running value by a positive constant does
not change the outcome of the cumulative draw. -/
theorem specPickTier_smul {c : ℚ} (hc : 0 < c) (w : Tier → ℚ) :
    ∀ (l : List Tier) (r : ℚ),
    specPickTier (fun t => c * w t) (c * r) l = specPickTier w r l := by
  intro l
  induction l with
  | nil => intro r; rfl
  | cons t ts ih =>
    intro r
    have hcond : (c * r - c * w t ≤ 0) ↔ (r - w t ≤ 0) := by
      rw [← mul_sub]
      constructor
      · intro h; nlinarith
      · intro h; nlinarith
    by_cases h : r - w t ≤ 0
    · simp [specPickTier, h, hcond.mpr h]
    · have h' : ¬ (c * r - c * w t ≤ 0) := fun hx => h (hcond.mp hx)
      simp only [specPickTier, if_neg h, if_neg h']
      rw [← mul_sub, ← ih (r - w t)]

/-- The rational cumulative draw over integer-valued weights an integer
running value coincides with its integer mirror. -/
theorem specPickTier_intCast (w : Tier → ℤ) :
    ∀ (l : List Tier) (r : ℤ),
    specPickTier (fun t => ((w t : ℤ) : ℚ)) ((r : ℤ) : ℚ) l = intPickTier w r l := by
  intro l
  induction l with
  | nil => intro r; rfl
  | cons t ts ih =>
    intro r
    have hcond : (((r : ℤ) : ℚ) - ((w t : ℤ) : ℚ) ≤ 0) ↔ (r - w t ≤ 0) := by
      constructor
      · intro h; exact_mod_cast (by push_cast at h ⊢; linarith : ((r - w t : ℤ) : ℚ) ≤ 0)
      · intro h
        have : ((r - w t : ℤ) : ℚ) ≤ 0 := by exact_mod_cast h
        push_cast at this; linarith
    by_cases h : r - w t ≤ 0
    · simp [specPickTier, intPickTier, hcond.mpr h, h]
    · have h' : ¬ (((r : ℤ) : ℚ) - ((w t : ℤ) : ℚ) ≤ 0) := fun hx => h (hcond.mp hx)
      simp only [specPickTier, intPickTier, if_neg h, if_neg h']
      rw [show ((r : ℤ) : ℚ) - ((w t : ℤ) : ℚ) = ((r - w t : ℤ) : ℚ) by push_cast; ring,
        ih (r - w t)]

theorem sum_map_div (l : List Tier) (f : Tier → ℚ) (c : ℚ) :
    (l.map (fun t => f t / c)).sum = (l.map f).sum / c := by
  induction l with
  | nil => simp
  | cons t ts ih => simp [ih, add_div]

/-- The rational spec draw with weights `w t / m` (`w` integral, `m` a
positive integer) is computed exactly by the integer mirror over weights
`rngDen * w t` with running value `rngNum seed * Σ w`. -/
theorem specSelectTier_eq_int (w : Tier → ℤ) (m : ℤ) (hm : 0 < m)
    (remTiers : List Tier) (seed : Nat) :
    specSelectTier (fun t => ((w t : ℤ) : ℚ) / ((m : ℤ) : ℚ)) remTiers seed =
    intPickTier (fun t => rngDen * w t)
      (rngNum seed * ((remTiers.filter (fun t => decide (0 < t.quota))).map w).sum)
      (remTiers.filter (fun t => decide (0 < t.quota))) := by
  unfold specSelectTier
  set cands := remTiers.filter (fun t => decide (0 < t.quota)) with hcands
  have hsum : (cands.map (fun t => ((w t : ℤ) : ℚ) / ((m : ℤ) : ℚ))).sum
      = ((cands.map w).sum : ℚ) / ((m : ℤ) : ℚ) := by
    rw [sum_map_div]
    congr 1
    rw [Int.cast_list_sum, List.map_map]
    rfl
  rw [hsum]
  have hmQ : (0 : ℚ) < ((m : ℤ) : ℚ) := by exact_mod_cast hm
  have hDQ : (0 : ℚ) < ((rngDen : ℤ) : ℚ) := by exact_mod_cast rngDen_pos
  have hm0 : ((m : ℤ) : ℚ) ≠ 0 := ne_of_gt hmQ
  have hD0 : ((rngDen : ℤ) : ℚ) ≠ 0 := ne_of_gt hDQ
  have hc : (0 : ℚ) < ((rngDen : ℤ) : ℚ) * ((m : ℤ) : ℚ) := mul_pos hDQ hmQ
  have hw : (fun t => ((w t : ℤ) : ℚ) / ((m : ℤ) : ℚ))
      = fun t => (((rngDen : ℤ) : ℚ) * ((m : ℤ) : ℚ))⁻¹ * (((rngDen * w t : ℤ) : ℚ)) := by
    funext t
    push_cast
    field_simp
    ring
  have hr : rngValue seed * (((cands.map w).sum : ℚ) / ((m : ℤ) : ℚ))
      = (((rngDen : ℤ) : ℚ) * ((m : ℤ) : ℚ))⁻¹
        * ((rngNum seed * (cands.map w).sum : ℤ) : ℚ) := by
    unfold rngValue
    push_cast
    field_simp
  rw [hw, hr, specPickTier_smul (inv_pos.mpr hc) (fun t => ((rngDen * w t : ℤ) : ℚ)),
    specPickTier_intCast]

/-- Case characterization of `selectTierWeighted`'s returned value. -/
theorem selectTierWeighted_fst (remTiers : List Tier) (seed : Nat) :
    (selectTierWeighted remTiers seed).1 =
      (match remTiers.filter (fun t => decide (0 < t.quota)) with
       | [] => .error "No available tiers with remaining quota"
       | a :: rest =>
         match pickW (rngNum seed *
             (((a :: rest).map (fun t => (t, tierWeight t))).map (fun p => p.2)).sum)
             ((a :: rest).map (fun t => (t, tierWeight t))) with
         | some t => .ok t.id
         | none => .ok a.id) := by
  unfold selectTierWeighted
  cases remTiers.filter (fun t => decide (0 < t.quota)) with
  | nil => rfl
  | cons a rest =>
    simp only
    cases pickW (rngNum seed *
        (((a :: rest).map (fun t => (t, tierWeight t))).map (fun p => p.2)).sum)
        ((a :: rest).map (fun t => (t, tierWeight t))) <;> rfl

/-- The integer spec mirror over weights `rngDen * w t` coincides with the
implementation's loop over pairs `(t, w t)`. -/
theorem intPickTier_eq_pickW (wt : Tier → ℤ) :
    ∀ (l : List Tier) (r : ℤ),
    intPickTier (fun t => rngDen * wt t) r l
      = (pickW r (l.map (fun t => (t, wt t)))).map (fun t => t.id) := by
  intro l
  induction l with
  | nil => intro r; rfl
  | cons t ts ih =>
    intro r
    by_cases h : r - rngDen * wt t ≤ 0
    · simp [intPickTier, pickW, h]
    · simp only [intPickTier, pickW, List.map_cons, if_neg h]
      exact ih (r - rngDen * wt t)

/-- C4 (amended): each candidate tier is weighted by
`Math.floor(remainingTier(tier) × biasMultiplier(tier))` computed in
binary64 floating point — the multiplier is the double value of the
literal (`0.5 / 0.7 / 1.2 / 1.8 / 2.5`), the product is rounded to the
nearest double (ties to even) and the floor of that rounded product is the
weight, not the exact product itself — and the chosen tier is exactly the
one the specification's cumulative draw (uniform value in
`[0, totalWeight)`, subtract weights in configured order until the
remainder is `≤ 0`) selects over those floored double weights.  The
trailing conjuncts record the exact multiplier table the claim states. -/
theorem C4_amended_floored_weights :
    (∀ (remTiers : List Tier) (seed : Nat),
      (selectTierWeighted remTiers seed).1 =
        (match specSelectTier (fun t => ((tierWeight t : ℤ) : ℚ)) remTiers seed with
         | some tid => .ok tid
         | none => .error "No available tiers with remaining quota")) ∧
    bellCurveMultiplier "T1" = 1/2 ∧ bellCurveMultiplier "T9" = 1/2 ∧
    bellCurveMultiplier "T2" = 7/10 ∧ bellCurveMultiplier "T8" = 7/10 ∧
    bellCurveMultiplier "T3" = 6/5 ∧ bellCurveMultiplier "T7" = 6/5 ∧
    bellCurveMultiplier "T4" = 9/5 ∧ bellCurveMultiplier "T6" = 9/5 ∧
    bellCurveMultiplier "T5" = 5/2 := by
  refine ⟨?_, ?_, ?_, ?_, ?_, ?_, ?_, ?_, ?_, ?_⟩
  · intro remTiers seed
    have hfn : (fun t => ((tierWeight t : ℤ) : ℚ))
        = fun t => ((tierWeight t : ℤ) : ℚ) / (((1 : ℤ) : ℚ)) := by
      funext t; norm_num
    rw [hfn, specSelectTier_eq_int tierWeight 1 one_pos, intPickTier_eq_pickW,
      selectTierWeighted_fst]
    cases hf : remTiers.filter (fun t => decide (0 < t.quota)) with
    | nil => rfl
    | cons a rest =>
      simp only
      have hsum : ((a :: rest).map tierWeight).sum
          = (((a :: rest).map (fun t => (t, tierWeight t))).map (fun p => p.2)).sum := by
        rw [List.map_map]; rfl
      rw [hsum]
      have hpos : ∀ t ∈ a :: rest, 0 < t.quota := by
        intro t ht
        have : t ∈ remTiers.filter (fun t => decide (0 < t.quota)) := hf ▸ ht
        simpa using (List.mem_filter.mp this).2
      have hwts : ∀ p ∈ (a :: rest).map (fun t => (t, tierWeight t)), 0 ≤ p.2 := by
        intro p hp
        obtain ⟨t, ht, rfl⟩ := List.mem_map.mp hp
        exact tierWeight_nonneg (hpos t ht)
      have hsum0 : 0 ≤ (((a :: rest).map (fun t => (t, tierWeight t))).map
          (fun p => p.2)).sum := by
        refine List.sum_nonneg ?_
        intro x hx
        obtain ⟨p, hp, rfl⟩ := List.mem_map.mp hx
        exact hwts p hp
      have hs := pickW_isSome ((a :: rest).map (fun t => (t, tierWeight t))) (by simp)
        hwts (rngNum seed * (((a :: rest).map (fun t => (t, tierWeight t))).map
          (fun p => p.2)).sum)
        (draw_in_range seed hsum0)
      cases hp : pickW (rngNum seed * (((a :: rest).map (fun t => (t, tierWeight t))).map
          (fun p => p.2)).sum)
          ((a :: rest).map (fun t => (t, tierWeight t))) with
      | none => rw [hp] at hs; simp at hs
      | some t => rfl
  all_goals simp [bellCurveMultiplier]

/-- Counterexample for C4 as stated: with two remaining tiers `T1` and `T5`
of quota 1 each and seed 20, the specified procedure with the unfloored
weights `quota × biasMultiplier` (`0.5` and `2.5`) chooses `T1`, but the
implementation, which floors the weights to `0` and `2`, chooses `T5`.
Floating point plays no role here: `1 × 0.5` and `1 × 2.5` are exact in
binary64, so the divergence is forced by the floor alone. -/
theorem C4_counterexample :
    specSelectTier specTierWeight [cxTierA, cxTierB] 20 = some "T1" ∧
    (selectTierWeighted [cxTierA, cxTierB] 20).1 = .ok "T5" := by
  constructor
  · have h1 : specTierWeight
        = fun t => (((t.quota * bellMult10 t.id : ℤ)) : ℚ) / (((10 : ℤ)) : ℚ) := by
      funext t
      unfold specTierWeight
      rw [bellMult10_eq]
      push_cast
      ring
    rw [h1, specSelectTier_eq_int _ 10 (by norm_num)]
    decide
  · rfl

/-! ### Configuration validation (C8) -/

theorem option_isNone_false {α : Type _} {o : Option α} :
    o.isNone = false ↔ o.isSome = true := by
  cases o <;> simp

theorem checkTiers_ok_iff :
    ∀ (i : Nat) (l : List RawTier),
    (∃ s, checkTiers i l = .ok s) ↔ ∀ t ∈ l, rawTierValid t := by
  intro i l
  induction l generalizing i with
  | nil => simp [checkTiers]
  | cons t rest ih =>
    constructor
    · rintro ⟨s, hs⟩ u hu
      unfold checkTiers at hs
      by_cases hc : (strFalsy t.id || t.scoreRange.isNone || t.quota.isNone) = true
      · rw [if_pos hc] at hs; cases hs
      · rw [if_neg hc] at hs
        simp only [Bool.or_eq_true, not_or, Bool.not_eq_true] at hc
        rcases List.mem_cons.mp hu with rfl | hu
        · exact ⟨hc.1.1, option_isNone_false.mp hc.1.2, option_isNone_false.mp hc.2⟩
        · cases hrec : checkTiers (i + 1) rest with
          | error e => rw [hrec] at hs; cases hs
          | ok s' => exact (ih (i + 1)).mp ⟨s', hrec⟩ u hu
    · intro hall
      have hval := hall t (List.mem_cons_self ..)
      obtain ⟨s', hs'⟩ := (ih (i + 1)).mpr (fun u hu => hall u (List.mem_cons_of_mem _ hu))
      refine ⟨t.quota.getD 0 + s', ?_⟩
      unfold checkTiers
      have hc : (strFalsy t.id || t.scoreRange.isNone || t.quota.isNone) = false := by
        obtain ⟨h1, h2, h3⟩ := hval
        simp only [Bool.or_eq_false_iff]
        exact ⟨⟨h1, option_isNone_false.mpr h2⟩, option_isNone_false.mpr h3⟩
      rw [if_neg (by simp [hc]), hs']

theorem checkVariants_ok_iff :
    ∀ (ti i : Nat) (l : List RawVariant),
    (∃ s, checkVariants ti i l = .ok s) ↔ ∀ v ∈ l, rawVariantValid v := by
  intro ti i l
  induction l generalizing i with
  | nil => simp [checkVariants]
  | cons v rest ih =>
    constructor
    · rintro ⟨s, hs⟩ u hu
      unfold checkVariants at hs
      by_cases hc : (strFalsy v.name || strFalsy v.tier || v.points.isNone || v.quota.isNone) = true
      · rw [if_pos hc] at hs; cases hs
      · rw [if_neg hc] at hs
        simp only [Bool.or_eq_true, not_or, Bool.not_eq_true] at hc
        rcases List.mem_cons.mp hu with rfl | hu
        · exact ⟨hc.1.1.1, hc.1.1.2, option_isNone_false.mp hc.1.2,
            option_isNone_false.mp hc.2⟩
        · cases hrec : checkVariants ti (i + 1) rest with
          | error e => rw [hrec] at hs; cases hs
          | ok s' => exact (ih (i + 1)).mp ⟨s', hrec⟩ u hu
    · intro hall
      have hval := hall v (List.mem_cons_self ..)
      obtain ⟨s', hs'⟩ := (ih (i + 1)).mpr (fun u hu => hall u (List.mem_cons_of_mem _ hu))
      refine ⟨v.quota.getD 0 + s', ?_⟩
      unfold checkVariants
      have hc : (strFalsy v.name || strFalsy v.tier || v.points.isNone || v.quota.isNone)
          = false := by
        obtain ⟨h1, h2, h3, h4⟩ := hval
        simp only [Bool.or_eq_false_iff]
        exact ⟨⟨⟨h1, h2⟩, option_isNone_false.mpr h3⟩, option_isNone_false.mpr h4⟩
      rw [if_neg (by simp [hc]), hs']

theorem checkTraits_ok_iff (cs : Int) :
    ∀ (i : Nat) (l : List RawTrait),
    (∃ ws, checkTraits cs i l = .ok ws) ↔ ∀ tr ∈ l, rawTraitValid tr := by
  intro i l
  induction l generalizing i with
  | nil => simp [checkTraits]
  | cons tr rest ih =>
    constructor
    · rintro ⟨ws, hws⟩ u hu
      unfold checkTraits at hws
      by_cases hname : (match tr.trait with
          | some nm => decide (nm ∈ expectedTraitNames)
          | none => false) = true
      · rw [if_neg (by simp [hname])] at hws
        cases hvs : tr.variants with
        | none => rw [hvs] at hws; cases hws
        | some vs =>
          rw [hvs] at hws
          simp only at hws
          by_cases hlen : vs.length = 26
          · rw [if_neg (by simp [hlen])] at hws
            cases hcv : checkVariants i 0 vs with
            | error e => rw [hcv] at hws; cases hws
            | ok tvq =>
              rw [hcv] at hws
              simp only at hws
              cases hrec : checkTraits cs (i + 1) rest with
              | error e => rw [hrec] at hws; cases hws
              | ok ws' =>
                rcases List.mem_cons.mp hu with rfl | hu
                · refine ⟨?_, vs, hvs, hlen, ?_⟩
                  · cases htr : u.trait with
                    | none => rw [htr] at hname; simp at hname
                    | some nm =>
                      rw [htr] at hname
                      simp only [decide_eq_true_eq] at hname
                      exact ⟨nm, rfl, hname⟩
                  · exact (checkVariants_ok_iff i 0 vs).mp ⟨tvq, hcv⟩
                · exact (ih (i + 1)).mp ⟨ws', hrec⟩ u hu
          · rw [if_pos (by simp [hlen])] at hws; cases hws
      · rw [if_pos (by simpa using hname)] at hws; cases hws
    · intro hall
      obtain ⟨⟨nm, hnm, hnmm⟩, vs, hvs, hlen, hvall⟩ := hall tr (List.mem_cons_self ..)
      obtain ⟨ws', hws'⟩ := (ih (i + 1)).mpr (fun u hu => hall u (List.mem_cons_of_mem _ hu))
      obtain ⟨tvq, htvq⟩ := (checkVariants_ok_iff i 0 vs).mpr hvall
      unfold checkTraits
      rw [if_neg (by simp [hnm, hnmm]), hvs]
      simp only
      rw [if_neg (by simp [hlen]), htvq]
      simp only
      rw [hws']
      dsimp only
      by_cases hq : tvq ≠ cs
      · exact ⟨_, by rw [if_pos hq]⟩
      · exact ⟨_, by rw [if_neg hq]⟩

/-- C8 (amended): configuration validation fails exactly when tiers or
categories are absent, some tier lacks an id, score range or numeric quota,
the category count differs from the expected six, some category's name is
not among the six expected names, some category's variant list is absent or
does not have exactly 26 entries, or some variant lacks a name, tier
reference, numeric point value or numeric quota.  An **empty** tier list is
accepted (a JavaScript empty array is truthy).  A tier-quota sum that
disagrees with the configured population size only adds a non-fatal warning
to a successful validation. -/
theorem C8_amended_validation :
    (∀ cfg : RawConfig, (validateConfig cfg).isOk = true ↔ rawConfigValid cfg) ∧
    (∀ (cfg : RawConfig) (tiers : List RawTier) (ws : List String) (s : Int),
      cfg.tiers = some tiers → validateConfig cfg = .ok ws →
      checkTiers 0 tiers = .ok s → s ≠ cfg.collectionSize →
      ("Warning: total tier quota = " ++ toString s ++ ", expected "
        ++ toString cfg.collectionSize) ∈ ws) := by
  constructor
  · intro cfg
    unfold validateConfig
    cases htiers : cfg.tiers with
    | none =>
      simp only [Except.isOk]
      constructor
      · intro h; cases h
      · rintro ⟨tiers, traits, h1, _⟩; rw [htiers] at h1; cases h1
    | some tiers =>
      cases htraits : cfg.traits with
      | none =>
        simp only [Except.isOk]
        constructor
        · intro h; cases h
        · rintro ⟨tiers', traits', _, h2, _⟩; rw [htraits] at h2; cases h2
      | some traits =>
        simp only
        constructor
        · intro h
          cases hct : checkTiers 0 tiers with
          | error e => rw [hct] at h; cases h
          | ok s =>
            rw [hct] at h
            simp only at h
            by_cases hlen : traits.length ≠ expectedTraitNames.length
            · rw [if_pos (by simpa using hlen)] at h; cases h
            · rw [if_neg (by simpa using hlen)] at h
              cases hctr : checkTraits cfg.collectionSize 0 traits with
              | error e => rw [hctr] at h; cases h
              | ok ws =>
                refine ⟨tiers, traits, htiers, htraits, ?_, ?_, ?_⟩
                · exact (checkTiers_ok_iff 0 tiers).mp ⟨s, hct⟩
                · simpa [expectedTraitNames] using not_not.mp hlen
                · exact (checkTraits_ok_iff cfg.collectionSize 0 traits).mp ⟨ws, hctr⟩
        · rintro ⟨tiers', traits', h1, h2, hvt, hlen, hvtr⟩
          rw [htiers] at h1
          rw [htraits] at h2
          cases h1; cases h2
          obtain ⟨s, hs⟩ := (checkTiers_ok_iff 0 tiers).mpr hvt
          obtain ⟨ws, hws⟩ := (checkTraits_ok_iff cfg.collectionSize 0 traits).mpr hvtr
          rw [hs]
          simp only
          rw [if_neg (by simp [expectedTraitNames, hlen]), hws]
          rfl
  · intro cfg tiers ws s htiers hok hct hs
    unfold validateConfig at hok
    rw [htiers] at hok
    cases htraits : cfg.traits with
    | none => rw [htraits] at hok; cases hok
    | some traits =>
      rw [htraits] at hok
      simp only at hok
      rw [hct] at hok
      simp only at hok
      by_cases hlen : traits.length ≠ expectedTraitNames.length
      · rw [if_pos (by simpa using hlen)] at hok; cases hok
      · rw [if_neg (by simpa using hlen)] at hok
        cases hctr : checkTraits cfg.collectionSize 0 traits with
        | error e => rw [hctr] at hok; cases hok
        | ok ws' =>
          rw [hctr] at hok
          simp only at hok
          cases hok
          rw [if_pos hs]
          exact List.mem_append_left _ (List.mem_singleton.mpr rfl)

/-- Counterexample for C8 as stated: a configuration whose tier list is
**empty** (but present) passes `validateConfig` — the claimed
missing/empty failure does not occur for an empty tier array. -/
theorem C8_counterexample :
    (validateConfig emptyTiersRawConfig).isOk = true ∧
    emptyTiersRawConfig.tiers = some [] :=
  ⟨rfl, rfl⟩

/-- Witness for C8: the amended theorem applied to the concrete
empty-tiers configuration, whose mismatched tier-quota sum (0 against a
population of 5) yields the non-fatal warning inside a successful
validation. -/
theorem C8_witness :
    ("Warning: total tier quota = " ++ toString (0 : Int) ++ ", expected "
      ++ toString (5 : Int)) ∈ (validateConfig emptyTiersRawConfig).toOption.getD [] := by
  have h := C8_amended_validation.2 emptyTiersRawConfig []
    ((validateConfig emptyTiersRawConfig).toOption.getD []) 0 rfl rfl rfl (by decide)
  exact h

/-! ### Completion validation (C7) -/

theorem list_isEmpty_iff {α : Type _} {l : List α} : l.isEmpty = true ↔ l = [] := by
  cases l <;> simp

theorem sum_int_eq_zero_iff {l : List Int} (h : ∀ x ∈ l, 0 ≤ x) :
    l.sum = 0 ↔ ∀ x ∈ l, x = 0 := by
  induction l with
  | nil => simp
  | cons a rest ih =>
    have ha : 0 ≤ a := h a (List.mem_cons_self ..)
    have hrest : ∀ x ∈ rest, 0 ≤ x := fun x hx => h x (List.mem_cons_of_mem _ hx)
    have hsum : 0 ≤ rest.sum := List.sum_nonneg hrest
    rw [List.sum_cons]
    constructor
    · intro h0
      intro x hx
      rcases List.mem_cons.mp hx with rfl | hx
      · omega
      · exact (ih hrest).mp (by omega) x hx
    · intro hall
      have h1 : a = 0 := hall a (List.mem_cons_self ..)
      have h2 : rest.sum = 0 := (ih hrest).mpr (fun x hx => hall x (List.mem_cons_of_mem _ hx))
      omega

theorem checkTraitVariants_ok_iff :
    ∀ (l : List TraitCfg), checkTraitVariants l = .ok () ↔
      ∀ tc ∈ l, tc.variants.filter (fun v => decide (0 < v.quota)) = [] := by
  intro l
  induction l with
  | nil => simp [checkTraitVariants]
  | cons tc rest ih =>
    unfold checkTraitVariants
    by_cases he : (tc.variants.filter (fun v => decide (0 < v.quota))).isEmpty = true
    · rw [if_pos he]
      constructor
      · intro h u hu
        rcases List.mem_cons.mp hu with rfl | hu
        · exact list_isEmpty_iff.mp he
        · exact ih.mp h u hu
      · intro h
        exact ih.mpr (fun u hu => h u (List.mem_cons_of_mem _ hu))
    · rw [if_neg he]
      constructor
      · intro h; cases h
      · intro h
        exact absurd (list_isEmpty_iff.mpr (h tc (List.mem_cons_self ..))) he

theorem checkTraitVariants_error_at :
    ∀ (pre : List TraitCfg) (tc : TraitCfg) (post : List TraitCfg) (v : Variant),
    (∀ tc' ∈ pre, tc'.variants.filter (fun v' => decide (0 < v'.quota)) = []) →
    tc.variants.filter (fun v' => decide (0 < v'.quota)) = [v] →
    checkTraitVariants (pre ++ tc :: post) =
      .error ("Trait " ++ tc.trait ++ " has variants with remaining quota: " ++ v.name) := by
  intro pre
  induction pre with
  | nil =>
    intro tc post v _ hf
    rw [List.nil_append]
    unfold checkTraitVariants
    rw [hf]
    rfl
  | cons p pre' ih =>
    intro tc post v hpre hf
    rw [List.cons_append]
    unfold checkTraitVariants
    rw [hpre p (List.mem_cons_self ..)]
    exact ih tc post v (fun u hu => hpre u (List.mem_cons_of_mem _ hu)) hf

/-- C7 (amended): with non-negative counters (as maintained by the engine)
and remaining tier ids known to the configuration, the completion validator
succeeds exactly when every remaining tier counter and every remaining
variant counter is zero.  On failure it raises a single error: when the
tier total is nonzero it reports only the total remaining count — naming no
tier and no variant — and only when all tier counters are zero does it name
the positive-quota variants of the first offending trait; in particular,
with exactly one variant of remaining quota 1 left (all tiers at zero), it
raises an error naming that variant. -/
theorem C7_amended_completion_check (cfg : Config) (remTiers : List Tier)
    (remTraits : List TraitCfg)
    (hguard : remTiers.all (fun t => cfg.tiers.any (fun c => c.id == t.id)) = true)
    (hnnT : ∀ t ∈ remTiers, 0 ≤ t.quota)
    (hnnV : ∀ tc ∈ remTraits, ∀ v ∈ tc.variants, 0 ≤ v.quota) :
    ((validateFinalGeneration cfg remTiers remTraits = .ok true) ↔
      ((∀ t ∈ remTiers, t.quota = 0) ∧
        ∀ tc ∈ remTraits, ∀ v ∈ tc.variants, v.quota = 0)) ∧
    (∀ (pre : List TraitCfg) (tc : TraitCfg) (post : List TraitCfg) (v : Variant),
      remTraits = pre ++ tc :: post →
      (∀ t ∈ remTiers, t.quota = 0) →
      (∀ tc' ∈ pre, ∀ v' ∈ tc'.variants, v'.quota = 0) →
      tc.variants.filter (fun v' => decide (0 < v'.quota)) = [v] →
      validateFinalGeneration cfg remTiers remTraits =
        .error ("Trait " ++ tc.trait ++ " has variants with remaining quota: " ++ v.name)) := by
  have hsum_iff : ((remTiers.map (fun t => t.quota)).sum = 0 ↔ ∀ t ∈ remTiers, t.quota = 0) := by
    rw [sum_int_eq_zero_iff (by
      intro x hx
      obtain ⟨t, ht, rfl⟩ := List.mem_map.mp hx
      exact hnnT t ht)]
    constructor
    · intro h t ht; exact h t.quota (List.mem_map_of_mem _ ht)
    · intro h x hx
      obtain ⟨t, ht, rfl⟩ := List.mem_map.mp hx
      exact h t ht
  have hfilter_iff : ∀ (t : Tier), t ∈ remTiers → (decide (0 < t.quota) = false ↔ t.quota = 0) := by
    intro t ht
    have := hnnT t ht
    constructor
    · intro h
      simp only [decide_eq_false_iff_not, not_lt] at h
      omega
    · intro h; simp [h]
  constructor
  · unfold validateFinalGeneration
    rw [if_pos hguard]
    by_cases htotal : (remTiers.map (fun t => t.quota)).sum ≠ 0
    · rw [if_pos htotal]
      constructor
      · intro h; cases h
      · rintro ⟨h1, _⟩
        exact absurd (hsum_iff.mpr h1) htotal
    · rw [if_neg htotal]
      push_neg at htotal
      have htiers0 : ∀ t ∈ remTiers, t.quota = 0 := hsum_iff.mp htotal
      have hfe : remTiers.filter (fun t => decide (0 < t.quota)) = [] := by
        rw [List.filter_eq_nil_iff]
        intro t ht
        simp [(hfilter_iff t ht).mpr (htiers0 t ht)]
      rw [hfe]
      rw [if_neg (by simp)]
      cases hcv : checkTraitVariants remTraits with
      | error e =>
        constructor
        · intro h; cases h
        · rintro ⟨_, h2⟩
          have : checkTraitVariants remTraits = .ok () := by
            rw [checkTraitVariants_ok_iff]
            intro tc htc
            rw [List.filter_eq_nil_iff]
            intro v hv
            have h0 : v.quota = 0 := h2 tc htc v hv
            simp [h0]
          rw [this] at hcv; cases hcv
      | ok u =>
        cases u
        constructor
        · intro _
          refine ⟨htiers0, ?_⟩
          intro tc htc v hv
          have hnil := checkTraitVariants_ok_iff remTraits |>.mp hcv tc htc
          have hvnot : ¬ (decide (0 < v.quota) = true) := by
            intro hd
            have hmem : v ∈ tc.variants.filter (fun v => decide (0 < v.quota)) :=
              List.mem_filter.mpr ⟨hv, hd⟩
            rw [hnil] at hmem
            cases hmem
          have hge := hnnV tc htc v hv
          simp only [decide_eq_true_eq, not_lt] at hvnot
          omega
        · intro _; rfl
  · intro pre tc post v hsplit htiers0 hpre hf
    unfold validateFinalGeneration
    rw [if_pos hguard]
    rw [if_neg (by simpa using hsum_iff.mpr htiers0)]
    have hfe : remTiers.filter (fun t => decide (0 < t.quota)) = [] := by
      rw [List.filter_eq_nil_iff]
      intro t ht
      simp [(hfilter_iff t ht).mpr (htiers0 t ht)]
    rw [hfe]
    rw [if_neg (by simp)]
    rw [hsplit, checkTraitVariants_error_at pre tc post v ?hpre hf]
    case hpre =>
      intro tc' htc'
      rw [List.filter_eq_nil_iff]
      intro v' hv'
      have h0 : v'.quota = 0 := hpre tc' htc' v' hv'
      simp [h0]

/-- Counterexample for C7 as stated: with one tier counter and one variant
counter both nonzero, the validator's error is the generic
incomplete-count message, which names neither the offending tier `T1` nor
the offending variant `V1` — it does not enumerate them. -/
theorem C7_counterexample :
    validateFinalGeneration c7Config c7Config.tiers c7Config.traits =
      .error "Generation incomplete: 1 NFTs remaining" ∧
    ¬ ("T1".data <:+: "Generation incomplete: 1 NFTs remaining".data) ∧
    ¬ ("V1".data <:+: "Generation incomplete: 1 NFTs remaining".data) :=
  ⟨rfl, by decide, by decide⟩

/-- Witness for C7: the amended theorem applied at a state with all tiers
at zero and exactly one variant of remaining quota 1, producing the error
that names that variant. -/
theorem C7_witness :
    validateFinalGeneration c7Config
      [{ id := "T1", name := "Ultra", scoreRange := (0, 0), quota := 0 }]
      [{ trait := "socks", variants := [{ name := "V1", tier := "T1", points := 0, quota := 1 }] }]
      = .error ("Trait " ++ "socks" ++ " has variants with remaining quota: " ++ "V1") :=
  (C7_amended_completion_check c7Config
      [{ id := "T1", name := "Ultra", scoreRange := (0, 0), quota := 0 }]
      [{ trait := "socks", variants := [{ name := "V1", tier := "T1", points := 0, quota := 1 }] }]
      rfl (by decide) (by decide)).2
    [] { trait := "socks", variants := [{ name := "V1", tier := "T1", points := 0, quota := 1 }] }
    [] { name := "V1", tier := "T1", points := 0, quota := 1 }
    rfl (by decide) (by decide) rfl

/-! ### Shape preservation: quota mutation never changes ids, names,
points, score ranges or list structure -/

theorem map_modifyAt_eq {α β : Type _} (f : α → α) (g : α → β) (h : ∀ a, g (f a) = g a) :
    ∀ (l : List α) (k : Nat), (modifyAt f k l).map g = l.map g := by
  intro l
  induction l with
  | nil => intro k; cases k <;> rfl
  | cons a as ih =>
    intro k
    cases k with
    | zero => simp [modifyAt, h]
    | succ n => simp [modifyAt, ih n]

theorem decrementVariantsRun_shapes (cfg : Config) :
    ∀ (sels : List Selection) (rt : List TraitCfg),
    ((decrementVariantsRun cfg rt sels).2).map TraitCfg.shape = rt.map TraitCfg.shape := by
  intro sels
  induction sels with
  | nil => intro rt; rfl
  | cons sel rest ih =>
    intro rt
    unfold decrementVariantsRun
    cases variantNameToTraitIndex cfg sel.variant.name with
    | none => rfl
    | some ti =>
      dsimp only
      cases rt.get? ti with
      | none => rfl
      | some tc =>
        dsimp only
        cases tc.variants.findIdx? (fun v => v.name == sel.variant.name) with
        | none => rfl
        | some vi =>
          dsimp only
          rw [ih]
          exact map_modifyAt_eq _ _ (fun tc' => by
            simp [TraitCfg.shape, map_modifyAt_eq decVarQuota Variant.key (fun v => rfl)]) _ _

theorem decrementQuotas_shapes (cfg : Config) (rt : List Tier) (rv : List TraitCfg)
    (tid : String) (sels : List Selection) :
    ((decrementQuotas cfg rt rv tid sels).2.1).map Tier.shape = rt.map Tier.shape ∧
    ((decrementQuotas cfg rt rv tid sels).2.2).map TraitCfg.shape = rv.map TraitCfg.shape := by
  unfold decrementQuotas
  cases tierIdToIndex cfg tid with
  | none => exact ⟨rfl, rfl⟩
  | some k =>
    dsimp only
    by_cases hk : k < rt.length
    · rw [if_pos hk]
      have hrun := decrementVariantsRun_shapes cfg sels rv
      cases hdv : decrementVariantsRun cfg rv sels with
      | mk e rv' =>
        rw [hdv] at hrun
        exact ⟨map_modifyAt_eq decTierQuota Tier.shape (fun t => rfl) rt k, hrun⟩
    · rw [if_neg hk]
      exact ⟨rfl, rfl⟩

theorem attemptOnce_shapes (cfg : Config) (st : QState) :
    ((attemptOnce cfg st).2).remTiers.map Tier.shape = st.remTiers.map Tier.shape ∧
    ((attemptOnce cfg st).2).remTraits.map TraitCfg.shape = st.remTraits.map TraitCfg.shape := by
  unfold attemptOnce
  cases selectTierWeighted st.remTiers st.seed with
  | mk r s1 =>
    cases r with
    | error e => exact ⟨rfl, rfl⟩
    | ok tid =>
      try dsimp only
      cases selectVariantsForTier st.remTraits tid s1 with
      | mk rv s2 =>
        cases rv with
        | error e => exact ⟨rfl, rfl⟩
        | ok sels =>
          try dsimp only
          cases isScoreInTierRange cfg (calculateScore sels) tid with
          | error e => exact ⟨rfl, rfl⟩
          | ok b =>
            try dsimp only
            cases b with
            | false => exact ⟨rfl, rfl⟩
            | true =>
              try dsimp only
              have hd := decrementQuotas_shapes cfg st.remTiers st.remTraits tid sels
              cases hdq : decrementQuotas cfg st.remTiers st.remTraits tid sels with
              | mk e p =>
                rw [hdq] at hd
                cases p with
                | mk rt rv' =>
                  try dsimp only
                  cases e with
                  | none =>
                    try dsimp only
                    cases getTierById cfg tid with
                    | error e2 => exact hd
                    | ok ti => exact hd
                  | some e1 => exact hd

/-! ### Index lemmas for the lookup maps -/

theorem lastIdx_none_iff (p : α → Bool) :
    ∀ (l : List α), lastIdx p l = none ↔ ∀ a ∈ l, p a = false := by
  intro l
  induction l with
  | nil => simp [lastIdx]
  | cons a as ih =>
    unfold lastIdx
    cases h : lastIdx p as with
    | some i =>
      simp only
      constructor
      · intro hx; cases hx
      · intro hall
        have : lastIdx p as = none := (ih.mpr (fun x hx => hall x (List.mem_cons_of_mem _ hx)))
        rw [h] at this; cases this
    | none =>
      by_cases hpa : p a = true
      · rw [if_pos hpa]
        constructor
        · intro hx; cases hx
        · intro hall
          rw [hall a (List.mem_cons_self ..)] at hpa
          cases hpa
      · rw [if_neg hpa]
        simp only [Bool.not_eq_true] at hpa
        constructor
        · intro _ x hx
          rcases List.mem_cons.mp hx with rfl | hx
          · exact hpa
          · exact ih.mp h x hx
        · intro _; rfl

theorem lastIdx_some_spec (p : α → Bool) :
    ∀ (l : List α) (k : Nat), lastIdx p l = some k →
    ∃ hk : k < l.length, p (l.get ⟨k, hk⟩) = true := by
  intro l
  induction l with
  | nil => intro k h; cases h
  | cons a as ih =>
    intro k h
    unfold lastIdx at h
    cases hr : lastIdx p as with
    | some i =>
      rw [hr] at h
      simp only [Option.some.injEq] at h
      obtain ⟨hi, hpi⟩ := ih i hr
      subst h
      exact ⟨by simp only [List.length_cons]; omega, hpi⟩
    | none =>
      rw [hr] at h
      by_cases hpa : p a = true
      · rw [if_pos hpa] at h
        simp only [Option.some.injEq] at h
        subst h
        exact ⟨by simp, hpa⟩
      · rw [if_neg hpa] at h
        cases h

theorem lastIdx_isSome_of_mem (p : α → Bool) :
    ∀ (l : List α) (a : α), a ∈ l → p a = true → (lastIdx p l).isSome = true := by
  intro l
  induction l with
  | nil => intro a h; cases h
  | cons b bs ih =>
    intro a ha hpa
    unfold lastIdx
    cases hr : lastIdx p bs with
    | some i => simp
    | none =>
      rcases List.mem_cons.mp ha with rfl | ha
      · rw [if_pos hpa]; rfl
      · have := ih a ha hpa
        rw [hr] at this
        cases this

theorem lastIdx_map {α β : Type _} (g : α → β) (p : β → Bool) :
    ∀ (l : List α), lastIdx p (l.map g) = lastIdx (fun a => p (g a)) l := by
  intro l
  induction l with
  | nil => rfl
  | cons a as ih => simp only [List.map_cons, lastIdx, ih]

/-! ### `findIdx?` with a start offset -/

theorem findIdx?_some_spec (p : α → Bool) :
    ∀ (l : List α) (i j : Nat), List.findIdx? p l i = some j →
    ∃ k, ∃ hk : k < l.length, j = i + k ∧ p (l.get ⟨k, hk⟩) = true := by
  intro l
  induction l with
  | nil => intro i j h; cases h
  | cons a as ih =>
    intro i j h
    rw [List.findIdx?_cons] at h
    by_cases hpa : p a = true
    · rw [if_pos hpa] at h
      simp only [Option.some.injEq] at h
      exact ⟨0, by simp, by omega, hpa⟩
    · rw [if_neg hpa] at h
      obtain ⟨k, hk, hj, hp⟩ := ih (i + 1) j h
      exact ⟨k + 1, by simpa using hk, by omega, hp⟩

theorem findIdx?_isSome_of_mem (p : α → Bool) :
    ∀ (l : List α) (i : Nat) (a : α), a ∈ l → p a = true →
    (List.findIdx? p l i).isSome = true := by
  intro l
  induction l with
  | nil => intro i a h; cases h
  | cons b bs ih =>
    intro i a ha hpa
    rw [List.findIdx?_cons]
    by_cases hpb : p b = true
    · rw [if_pos hpb]; rfl
    · rw [if_neg hpb]
      rcases List.mem_cons.mp ha with rfl | ha
      · exact absurd hpa hpb
      · exact ih (i + 1) a ha hpa

/-! ### Pointwise characterization of a single-slot mutation -/

theorem map_eq_self_of_mem {α : Type _} (G : α → α) :
    ∀ (l : List α), (∀ a ∈ l, G a = a) → l.map G = l := by
  intro l
  induction l with
  | nil => intro _; rfl
  | cons a as ih =>
    intro h
    simp only [List.map_cons, h a (List.mem_cons_self ..),
      ih (fun x hx => h x (List.mem_cons_of_mem _ hx))]

theorem modifyAt_eq_map_pointwise {α : Type _} (F G : α → α) :
    ∀ (l : List α) (k : Nat) (hk : k < l.length),
    (∀ (i : Nat) (hi : i < l.length), i ≠ k → G (l.get ⟨i, hi⟩) = l.get ⟨i, hi⟩) →
    F (l.get ⟨k, hk⟩) = G (l.get ⟨k, hk⟩) →
    modifyAt F k l = l.map G := by
  intro l
  induction l with
  | nil => intro k hk; cases hk
  | cons a as ih =>
    intro k hk hoth hFG
    cases k with
    | zero =>
      simp only [modifyAt, List.map_cons]
      have h2 : as.map G = as := by
        apply map_eq_self_of_mem
        intro x hx
        obtain ⟨⟨i, hi⟩, hget⟩ := List.mem_iff_get.mp hx
        have h3 := hoth (i + 1) (by simpa using hi) (by omega)
        rw [← hget]
        exact h3
      rw [show F a = G a from hFG, h2]
    | succ n =>
      simp only [modifyAt, List.map_cons]
      have h0 : G a = a := hoth 0 (by simp) (by omega)
      rw [h0, ih n (by simpa using hk)
        (fun i hi hne => hoth (i + 1) (by simpa using hi) (by omega)) hFG]

/-! ### Exact characterization of the quota decrement -/

theorem nodup_map_get_inj {α β : Type _} {f : α → β} {l : List α} (h : (l.map f).Nodup)
    (i j : Nat) (hi : i < l.length) (hj : j < l.length)
    (heq : f (l.get ⟨i, hi⟩) = f (l.get ⟨j, hj⟩)) : i = j := by
  have hinj := List.nodup_iff_injective_get.mp h
  have h1 : (l.map f).get ⟨i, by simpa using hi⟩ = (l.map f).get ⟨j, by simpa using hj⟩ := by
    rw [List.get_map, List.get_map]
    exact heq
  have h2 := hinj h1
  simpa using h2

/-- Under unique tier ids, the looked-up tier index points at the unique
tier with the committed id, and decrementing there is the same as the
id-keyed pointwise decrement over the whole list. -/
theorem tierIdToIndex_spec (cfg : Config) (remTiers : List Tier) (tid : String)
    (hids : remTiers.map (fun t => t.id) = cfg.tiers.map (fun t => t.id))
    (hTU : tierIdsUnique cfg)
    (hex : ∃ t ∈ remTiers, t.id = tid) :
    ∃ k, tierIdToIndex cfg tid = some k ∧ k < remTiers.length ∧
      modifyAt decTierQuota k remTiers = remTiers.map (decTierById tid) := by
  have hlast : tierIdToIndex cfg tid = lastIdx (fun t => t.id == tid) remTiers := by
    unfold tierIdToIndex
    have h1 : lastIdx (fun t : Tier => t.id == tid) cfg.tiers
        = lastIdx (fun s => s == tid) (cfg.tiers.map (fun t => t.id)) :=
      (lastIdx_map (fun t : Tier => t.id) (fun s => s == tid) cfg.tiers).symm
    have h2 : lastIdx (fun t : Tier => t.id == tid) remTiers
        = lastIdx (fun s => s == tid) (remTiers.map (fun t => t.id)) :=
      (lastIdx_map (fun t : Tier => t.id) (fun s => s == tid) remTiers).symm
    rw [h1, h2, hids]
  obtain ⟨t0, ht0, hid0⟩ := hex
  have hsome := lastIdx_isSome_of_mem (fun t : Tier => t.id == tid) remTiers t0 ht0
    (by simp [hid0])
  cases hk : lastIdx (fun t : Tier => t.id == tid) remTiers with
  | none => rw [hk] at hsome; cases hsome
  | some k =>
    obtain ⟨hklt, hpk⟩ := lastIdx_some_spec _ remTiers k hk
    have hnd : (remTiers.map (fun t => t.id)).Nodup := by rw [hids]; exact hTU
    simp only [beq_iff_eq] at hpk
    refine ⟨k, by rw [hlast, hk], hklt, ?_⟩
    apply modifyAt_eq_map_pointwise decTierQuota (decTierById tid) remTiers k hklt
    · intro i hi hne
      unfold decTierById
      rw [if_neg]
      intro heq
      exact hne (nodup_map_get_inj hnd i k hi hklt (by rw [heq, hpk]))
    · unfold decTierById
      rw [if_pos hpk]

/-- `any` over a mapped list, for heterogeneous maps. -/
theorem any_map_general {α β : Type _} (f : α → β) (p : β → Bool) :
    ∀ l : List α, (l.map f).any p = l.any (fun a => p (f a)) := by
  intro l
  induction l with
  | nil => rfl
  | cons a as ih => simp [ih]

/-- Under globally unique variant names, the looked-up (trait, variant)
indices for a selected name point at its unique occurrence, and the
double-slot decrement is the same as the name-keyed pointwise decrement
over the whole structure. -/
theorem variantStep_spec (cfg : Config) (rt : List TraitCfg) (n : String)
    (hnames : rt.map (fun tc => tc.variants.map (fun v => v.name))
      = cfg.traits.map (fun tc => tc.variants.map (fun v => v.name)))
    (hVU : variantNamesUnique cfg)
    (hmem : ∃ tc ∈ rt, ∃ v ∈ tc.variants, v.name = n) :
    ∃ ti tc vi,
      variantNameToTraitIndex cfg n = some ti ∧
      rt.get? ti = some tc ∧
      tc.variants.findIdx? (fun v => v.name == n) = some vi ∧
      modifyAt (fun tc' => { tc' with variants := modifyAt decVarQuota vi tc'.variants }) ti rt
        = rt.map (decByName n) := by
  have hflat : ((rt.map (fun tc => tc.variants.map (fun v => v.name))).flatten).Nodup := by
    rw [hnames]; exact hVU
  have hnd_each : ∀ tc ∈ rt, (tc.variants.map (fun v => v.name)).Nodup := by
    intro tc htc
    exact (List.nodup_flatten.mp hflat).1 _ (List.mem_map_of_mem _ htc)
  have hdisj := (List.nodup_flatten.mp hflat).2
  have hlast : variantNameToTraitIndex cfg n
      = lastIdx (fun tc : TraitCfg => tc.variants.any (fun v => v.name == n)) rt := by
    unfold variantNameToTraitIndex
    have hfun : ∀ (l : List TraitCfg),
        lastIdx (fun tc : TraitCfg => tc.variants.any (fun v => v.name == n)) l
          = lastIdx (fun s : List String => s.any (fun x => x == n))
              (l.map (fun tc => tc.variants.map (fun v => v.name))) := by
      intro l
      rw [lastIdx_map]
      congr 1
      funext tc
      rw [any_map_general]
    rw [hfun cfg.traits, hfun rt, hnames]
  obtain ⟨tc0, htc0, v0, hv0, hv0n⟩ := hmem
  have hsome := lastIdx_isSome_of_mem
    (fun tc : TraitCfg => tc.variants.any (fun v => v.name == n)) rt tc0 htc0
    (List.any_eq_true.mpr ⟨v0, hv0, by simp [hv0n]⟩)
  cases hti : lastIdx (fun tc : TraitCfg => tc.variants.any (fun v => v.name == n)) rt with
  | none => rw [hti] at hsome; cases hsome
  | some ti =>
    obtain ⟨htilt, hpti⟩ := lastIdx_some_spec _ rt ti hti
    have htcmem : rt.get ⟨ti, htilt⟩ ∈ rt := List.get_mem rt ti htilt
    obtain ⟨vsel, hvsel, hvseln⟩ := List.any_eq_true.mp hpti
    have hfsome := findIdx?_isSome_of_mem (fun v : Variant => v.name == n)
      (rt.get ⟨ti, htilt⟩).variants 0 vsel hvsel hvseln
    cases hvi : (rt.get ⟨ti, htilt⟩).variants.findIdx? (fun v => v.name == n) with
    | none => rw [hvi] at hfsome; cases hfsome
    | some vi =>
      obtain ⟨kk, hkk, hvik, hpkk⟩ := findIdx?_some_spec _ (rt.get ⟨ti, htilt⟩).variants 0 vi hvi
      have hkkvi : kk = vi := by omega
      subst hkkvi
      simp only [beq_iff_eq] at hpkk hvseln
      have hn_ti : n ∈ (rt.map (fun tc => tc.variants.map (fun v => v.name))).get
          ⟨ti, by simpa using htilt⟩ := by
        rw [List.get_map, ← hvseln]
        exact List.mem_map_of_mem _ hvsel
      refine ⟨ti, rt.get ⟨ti, htilt⟩, kk, by rw [hlast, hti], List.get?_eq_get htilt, hvi, ?_⟩
      apply modifyAt_eq_map_pointwise _ _ rt ti htilt
      · -- other traits do not contain the name
        intro i hi hne
        have hnotin : ∀ v ∈ (rt.get ⟨i, hi⟩).variants, ¬ (v.name = n) := by
          intro v hv hvn
          have hn_i : n ∈ (rt.map (fun tc => tc.variants.map (fun v => v.name))).get
              ⟨i, by simpa using hi⟩ := by
            rw [List.get_map, ← hvn]
            exact List.mem_map_of_mem _ hv
          rcases Nat.lt_or_ge i ti with hlt | hge
          · exact (List.pairwise_iff_get.mp hdisj ⟨i, by simpa using hi⟩
              ⟨ti, by simpa using htilt⟩ hlt) hn_i hn_ti
          · have hlt2 : ti < i := by omega
            exact (List.pairwise_iff_get.mp hdisj ⟨ti, by simpa using htilt⟩
              ⟨i, by simpa using hi⟩ hlt2) hn_ti hn_i
        have hmapid : (rt.get ⟨i, hi⟩).variants.map
            (fun v => if v.name = n then decVarQuota v else v) = (rt.get ⟨i, hi⟩).variants := by
          apply map_eq_self_of_mem
          intro v hv
          rw [if_neg (hnotin v hv)]
        unfold decByName
        rw [hmapid]
      · -- at the owning trait, the slot update is the name-keyed map
        have hinner : modifyAt decVarQuota kk (rt.get ⟨ti, htilt⟩).variants
            = (rt.get ⟨ti, htilt⟩).variants.map
                (fun v => if v.name = n then decVarQuota v else v) := by
          apply modifyAt_eq_map_pointwise _ _ (rt.get ⟨ti, htilt⟩).variants kk hkk
          · intro j hj hne2
            rw [if_neg]
            intro heq
            have hndtc : ((rt.get ⟨ti, htilt⟩).variants.map (fun v => v.name)).Nodup :=
              hnd_each _ htcmem
            exact hne2 (nodup_map_get_inj hndtc j kk hj hkk (by rw [heq, hpkk]))
          · rw [if_pos hpkk]
        unfold decByName
        rw [hinner]

/-- One name-keyed decrement step composed with the remaining names is the
decrement keyed by the full name list, provided the head name does not
recur. -/
theorem decStep_comp (n : String) (rest : List String) (hn : n ∉ rest) (v : Variant) :
    (if (if v.name = n then decVarQuota v else v).name ∈ rest
      then decVarQuota (if v.name = n then decVarQuota v else v)
      else (if v.name = n then decVarQuota v else v))
    = if v.name ∈ n :: rest then decVarQuota v else v := by
  by_cases h1 : v.name = n
  · rw [if_pos h1]
    have hname : (decVarQuota v).name = v.name := rfl
    rw [if_neg (by rw [hname, h1]; exact hn), if_pos (by rw [h1]; exact List.mem_cons_self ..)]
  · rw [if_neg h1]
    by_cases h2 : v.name ∈ rest
    · rw [if_pos h2, if_pos (List.mem_cons_of_mem _ h2)]
    · rw [if_neg h2, if_neg (by
        intro hmem
        rcases List.mem_cons.mp hmem with h | h
        · exact h1 h
        · exact h2 h)]

/-- A name-keyed decrement keeps every variant name. -/
theorem decKeyed_names (n : String) (tc : TraitCfg) :
    (decByName n tc).variants.map (fun v => v.name) = tc.variants.map (fun v => v.name) := by
  unfold decByName
  simp only [List.map_map]
  apply List.map_congr_left
  intro v _
  by_cases h : v.name = n
  · simp [Function.comp, h, decVarQuota]
  · simp [Function.comp, h]

/-- The `forEach` decrement loop, under global name uniqueness and one
occurrence per selected name, equals the pointwise decrement keyed by the
set of selected names. -/
theorem decrementVariantsRun_spec (cfg : Config) :
    ∀ (sels : List Selection) (rt : List TraitCfg),
    rt.map (fun tc => tc.variants.map (fun v => v.name))
      = cfg.traits.map (fun tc => tc.variants.map (fun v => v.name)) →
    variantNamesUnique cfg →
    (∀ sel ∈ sels, ∃ tc ∈ rt, ∃ v ∈ tc.variants, v.name = sel.variant.name) →
    (sels.map (fun s => s.variant.name)).Nodup →
    decrementVariantsRun cfg rt sels
      = (none, rt.map (decBySelected (sels.map (fun s => s.variant.name)))) := by
  intro sels
  induction sels with
  | nil =>
    intro rt _ _ _ _
    unfold decrementVariantsRun
    simp only [List.map_nil]
    have hid : rt.map (decBySelected []) = rt := by
      apply map_eq_self_of_mem
      intro tc _
      unfold decBySelected
      have hm : tc.variants.map (fun v => if v.name ∈ ([] : List String)
          then decVarQuota v else v) = tc.variants := by
        apply map_eq_self_of_mem
        intro v _
        rw [if_neg (List.not_mem_nil _)]
      rw [hm]
    rw [hid]
  | cons sel rest ih =>
    intro rt hnames hVU hpres hnod
    obtain ⟨ti, tc, vi, hti, htc, hvi, hmod⟩ := variantStep_spec cfg rt sel.variant.name
      hnames hVU (hpres sel (List.mem_cons_self ..))
    unfold decrementVariantsRun
    rw [hti]
    dsimp only
    rw [htc]
    dsimp only
    rw [hvi]
    dsimp only
    rw [hmod]
    have hnotin : sel.variant.name ∉ rest.map (fun s => s.variant.name) :=
      (List.nodup_cons.mp hnod).1
    have hnames' : (rt.map (decByName sel.variant.name)).map
        (fun tc => tc.variants.map (fun v => v.name))
        = cfg.traits.map (fun tc => tc.variants.map (fun v => v.name)) := by
      rw [List.map_map, ← hnames]
      apply List.map_congr_left
      intro tc' _
      exact decKeyed_names sel.variant.name tc'
    have hpres' : ∀ sel' ∈ rest,
        ∃ tc' ∈ rt.map (decByName sel.variant.name),
        ∃ v ∈ tc'.variants, v.name = sel'.variant.name := by
      intro sel' hsel'
      obtain ⟨tc', htc', v, hv, hvn⟩ := hpres sel' (List.mem_cons_of_mem _ hsel')
      refine ⟨decByName sel.variant.name tc', List.mem_map_of_mem _ htc',
        (if v.name = sel.variant.name then decVarQuota v else v), ?_, ?_⟩
      · unfold decByName
        exact List.mem_map_of_mem _ hv
      · by_cases h : v.name = sel.variant.name
        · rw [if_pos h]; exact hvn
        · rw [if_neg h]; exact hvn
    rw [ih _ hnames' hVU hpres' (List.nodup_cons.mp hnod).2]
    rw [List.map_map]
    have hcomp : (decBySelected (rest.map (fun s => s.variant.name)))
          ∘ (decByName sel.variant.name)
        = decBySelected ((sel :: rest).map (fun s => s.variant.name)) := by
      funext tc''
      unfold decBySelected decByName
      simp only [Function.comp, List.map_map, List.map_cons]
      congr 1
      apply List.map_congr_left
      intro v _
      exact decStep_comp sel.variant.name (rest.map (fun s => s.variant.name)) hnotin v
    rw [hcomp]

/-- Full characterization of a successful `decrementQuotas` call: no error
is thrown, the unique tier bearing the committed id loses one unit of
quota, and exactly the selected variants lose one unit of quota. -/
theorem decrementQuotas_spec (cfg : Config) (remTiers : List Tier) (remTraits : List TraitCfg)
    (tid : String) (sels : List Selection)
    (hids : remTiers.map (fun t => t.id) = cfg.tiers.map (fun t => t.id))
    (hTU : tierIdsUnique cfg)
    (hex : ∃ t ∈ remTiers, t.id = tid)
    (hnames : remTraits.map (fun tc => tc.variants.map (fun v => v.name))
      = cfg.traits.map (fun tc => tc.variants.map (fun v => v.name)))
    (hVU : variantNamesUnique cfg)
    (hpres : ∀ sel ∈ sels, ∃ tc ∈ remTraits, ∃ v ∈ tc.variants, v.name = sel.variant.name)
    (hnod : (sels.map (fun s => s.variant.name)).Nodup) :
    decrementQuotas cfg remTiers remTraits tid sels
      = (none, remTiers.map (decTierById tid),
         remTraits.map (decBySelected (sels.map (fun s => s.variant.name)))) := by
  obtain ⟨k, hk1, hk2, hk3⟩ := tierIdToIndex_spec cfg remTiers tid hids hTU hex
  unfold decrementQuotas
  rw [hk1]
  dsimp only
  rw [if_pos hk2]
  rw [decrementVariantsRun_spec cfg sels remTraits hnames hVU hpres hnod]
  dsimp only
  rw [hk3]

/-- The selected variants of a successful variant selection bear pairwise
distinct names when the quota state's variant names are globally
distinct. -/
theorem selection_names_nodup :
    ∀ (remTraits : List TraitCfg) (sels : List Selection),
    List.Forall₂ (fun tc sel => sel.trait = tc.trait ∧ sel.variant ∈ tc.variants ∧
      sel.variant.tier = tid ∧ 0 < sel.variant.quota) remTraits sels →
    ((remTraits.map (fun tc => tc.variants.map (fun v => v.name))).flatten).Nodup →
    (sels.map (fun s => s.variant.name)).Nodup := by
  intro remTraits sels hrel
  induction hrel with
  | nil => intro _; exact List.nodup_nil
  | cons hr htail ih =>
    rename_i tc0 sel0 rts sels'
    intro hnd
    rw [List.map_cons, List.flatten_cons] at hnd
    obtain ⟨h1, h2, h3⟩ := List.nodup_append.mp hnd
    rw [List.map_cons, List.nodup_cons]
    constructor
    · intro hmem
      obtain ⟨sel', hsel', hname⟩ := List.mem_map.mp hmem
      obtain ⟨tc', htc', hrel'⟩ := forall₂_mem_right htail sel' hsel'
      have hin2 : sel'.variant.name ∈
          (rts.map (fun tc => tc.variants.map (fun v => v.name))).flatten :=
        List.mem_flatten.mpr ⟨tc'.variants.map (fun v => v.name),
          List.mem_map_of_mem _ htc', List.mem_map_of_mem _ hrel'.2.1⟩
      have hin1 : sel0.variant.name ∈ tc0.variants.map (fun v => v.name) :=
        List.mem_map_of_mem (fun v : Variant => v.name) hr.2.1
      rw [hname] at hin2
      exact h3 hin1 hin2
    · exact ih h2

/-! ### Projections of well-formedness -/

theorem keys_to_names (vs : List Variant) :
    (vs.map Variant.key).map (fun k => k.1) = vs.map (fun v => v.name) := by
  rw [List.map_map]
  rfl

theorem shape_to_ids {l l' : List Tier} (h : l.map Tier.shape = l'.map Tier.shape) :
    l.map (fun t => t.id) = l'.map (fun t => t.id) := by
  have h2 := congrArg (List.map (fun p : String × String × (Int × Int) => p.1)) h
  rw [List.map_map, List.map_map] at h2
  exact h2

theorem shape_to_traits {l l' : List TraitCfg}
    (h : l.map TraitCfg.shape = l'.map TraitCfg.shape) :
    l.map (fun tc => tc.trait) = l'.map (fun tc => tc.trait) := by
  have h2 := congrArg (List.map (fun p : String × List (String × String × Int) => p.1)) h
  rw [List.map_map, List.map_map] at h2
  exact h2

theorem shape_to_names {l l' : List TraitCfg}
    (h : l.map TraitCfg.shape = l'.map TraitCfg.shape) :
    l.map (fun tc => tc.variants.map (fun v => v.name))
      = l'.map (fun tc => tc.variants.map (fun v => v.name)) := by
  have h2 := congrArg (List.map (fun p : String × List (String × String × Int) =>
    p.2.map (fun k => k.1))) h
  rw [List.map_map, List.map_map] at h2
  have h3 : ∀ (m : List TraitCfg), m.map ((fun p : String × List (String × String × Int) =>
      p.2.map (fun k => k.1)) ∘ TraitCfg.shape)
      = m.map (fun tc => tc.variants.map (fun v => v.name)) := by
    intro m
    apply List.map_congr_left
    intro tc _
    exact keys_to_names tc.variants
  rw [h3, h3] at h2
  exact h2

theorem map_eq_forall₂ {α β γ : Type _} (f : α → γ) (g : β → γ) :
    ∀ (l : List α) (l' : List β), l.map f = l'.map g →
    List.Forall₂ (fun a b => f a = g b) l l' := by
  intro l
  induction l with
  | nil =>
    intro l' h
    cases l' with
    | nil => exact .nil
    | cons b bs => simp at h
  | cons a as ih =>
    intro l' h
    cases l' with
    | nil => simp at h
    | cons b bs =>
      simp only [List.map_cons, List.cons.injEq] at h
      exact .cons h.1 (ih bs h.2)

theorem forall₂_comp {α β γ : Type _} {R : α → β → Prop} {S : β → γ → Prop} :
    ∀ {l₁ : List α} {l₂ : List β} {l₃ : List γ},
    List.Forall₂ R l₁ l₂ → List.Forall₂ S l₂ l₃ →
    List.Forall₂ (fun a c => ∃ b, R a b ∧ S b c) l₁ l₃ := by
  intro l₁ l₂ l₃ h1
  induction h1 generalizing l₃ with
  | nil =>
    intro h2
    cases h2
    exact .nil
  | cons hr _ ih =>
    intro h2
    cases h2 with
    | cons hs hts => exact .cons ⟨_, hr, hs⟩ (ih hts)

/-! ### Master case analysis of one attempt under well-formedness -/

/-- Under a well-formed state with unique tier ids and variant names, one
attempt either fails (by a caught error or an out-of-range score) leaving
all counters untouched, or commits, decrementing exactly the chosen tier
(selected with positive remaining quota) and exactly the selected variants
(each selected from its trait with positive remaining quota). -/
theorem attemptOnce_master (cfg : Config) (st : QState)
    (hWF : WFState cfg st) (hTU : tierIdsUnique cfg) (hVU : variantNamesUnique cfg) :
    (∃ e, (attemptOnce cfg st).1 = .errored e ∧
       ((attemptOnce cfg st).2).remTiers = st.remTiers ∧
       ((attemptOnce cfg st).2).remTraits = st.remTraits) ∨
    ((attemptOnce cfg st).1 = .outOfRange ∧
       ((attemptOnce cfg st).2).remTiers = st.remTiers ∧
       ((attemptOnce cfg st).2).remTraits = st.remTraits) ∨
    (∃ tid tn sc sels,
       (attemptOnce cfg st).1 = .committed tid tn sc sels ∧
       (∃ t ∈ st.remTiers, t.id = tid ∧ 0 < t.quota) ∧
       List.Forall₂ (fun tc sel => sel.trait = tc.trait ∧ sel.variant ∈ tc.variants ∧
         sel.variant.tier = tid ∧ 0 < sel.variant.quota) st.remTraits sels ∧
       ((attemptOnce cfg st).2).remTiers = st.remTiers.map (decTierById tid) ∧
       ((attemptOnce cfg st).2).remTraits
         = st.remTraits.map (decBySelected (sels.map (fun s => s.variant.name)))) := by
  obtain ⟨hWFt, hWFv⟩ := hWF
  have hids : st.remTiers.map (fun t => t.id) = cfg.tiers.map (fun t => t.id) :=
    shape_to_ids hWFt
  have hnames : st.remTraits.map (fun tc => tc.variants.map (fun v => v.name))
      = cfg.traits.map (fun tc => tc.variants.map (fun v => v.name)) :=
    shape_to_names hWFv
  cases hsel : selectTierWeighted st.remTiers st.seed with
  | mk r1 s1 =>
    cases r1 with
    | error e =>
      have heq : attemptOnce cfg st = (.errored e, { st with seed := s1 }) := by
        unfold attemptOnce
        rw [hsel]
      exact Or.inl ⟨e, by rw [heq], by rw [heq], by rw [heq]⟩
    | ok tid =>
      have hex := (selectTierWeighted_ok hsel).1
      have hexw : ∃ t ∈ st.remTiers, t.id = tid := by
        obtain ⟨t, ht, hid, _⟩ := hex
        exact ⟨t, ht, hid⟩
      have hexc : ∃ ct ∈ cfg.tiers, ct.id = tid := by
        obtain ⟨t, ht, hid⟩ := hexw
        have : tid ∈ cfg.tiers.map (fun t => t.id) := by
          rw [← hids, ← hid]
          exact List.mem_map_of_mem _ ht
        obtain ⟨ct, hct, hcid⟩ := List.mem_map.mp this
        exact ⟨ct, hct, hcid⟩
      have hfind : ∃ ti, getTierById cfg tid = .ok ti := by
        obtain ⟨ct, hct, hcid⟩ := hexc
        have : (cfg.tiers.find? (fun t => t.id == tid)).isSome = true :=
          List.find?_isSome.mpr ⟨ct, hct, by simp [hcid]⟩
        obtain ⟨ti, hti⟩ := Option.isSome_iff_exists.mp this
        exact ⟨ti, by unfold getTierById; rw [hti]⟩
      obtain ⟨ti, hget⟩ := hfind
      cases hvar : selectVariantsForTier st.remTraits tid s1 with
      | mk r2 s2 =>
        cases r2 with
        | error e =>
          have heq : attemptOnce cfg st = (.errored e, { st with seed := s2 }) := by
            unfold attemptOnce
            rw [hsel]
            dsimp only
            rw [hvar]
          exact Or.inl ⟨e, by rw [heq], by rw [heq], by rw [heq]⟩
        | ok sels =>
          have hrel := selectVariantsForTier_ok hvar
          have hisr : isScoreInTierRange cfg (calculateScore sels) tid
              = .ok (decide (ti.scoreRange.1 ≤ calculateScore sels)
                  && decide (calculateScore sels ≤ ti.scoreRange.2)) := by
            unfold isScoreInTierRange
            rw [hget]
          cases hb : (decide (ti.scoreRange.1 ≤ calculateScore sels)
              && decide (calculateScore sels ≤ ti.scoreRange.2)) with
          | false =>
            have heq : attemptOnce cfg st = (.outOfRange, { st with seed := s2 }) := by
              unfold attemptOnce
              rw [hsel]
              dsimp only
              rw [hvar]
              dsimp only
              rw [hisr, hb]
            exact Or.inr (Or.inl ⟨by rw [heq], by rw [heq], by rw [heq]⟩)
          | true =>
            have hpres : ∀ sel ∈ sels, ∃ tc ∈ st.remTraits, ∃ v ∈ tc.variants,
                v.name = sel.variant.name := by
              intro sel hsel'
              obtain ⟨tc, htc, hr⟩ := forall₂_mem_right hrel sel hsel'
              exact ⟨tc, htc, sel.variant, hr.2.1, rfl⟩
            have hnod := selection_names_nodup st.remTraits sels hrel
              (by rw [hnames]; exact hVU)
            have hdec := decrementQuotas_spec cfg st.remTiers st.remTraits tid sels
              hids hTU hexw hnames hVU hpres hnod
            have heq : attemptOnce cfg st
                = (.committed tid ti.name (calculateScore sels) sels,
                   ⟨st.remTiers.map (decTierById tid),
                    st.remTraits.map (decBySelected (sels.map (fun s => s.variant.name))),
                    s2⟩) := by
              unfold attemptOnce
              rw [hsel]
              dsimp only
              rw [hvar]
              dsimp only
              rw [hisr, hb]
              dsimp only
              rw [hdec]
              dsimp only
              rw [hget]
            exact Or.inr (Or.inr ⟨tid, ti.name, calculateScore sels, sels,
              by rw [heq], hex, hrel, by rw [heq], by rw [heq]⟩)

/-- C2 (amended): under a well-formed quota state (as produced by
`loadConfig`) with unique tier ids and **globally unique variant names
across all traits**, an attempt of the `generateNFT` loop that fails — by
a caught error (exhaustion included) or an out-of-range score — leaves
every remaining tier counter and every remaining variant counter
unchanged, while a successful (committed) attempt decrements exactly the
chosen tier's counter by 1 and each chosen variant's counter by 1, leaving
all other counters unchanged.  The loaded configuration is a pure
parameter of the embedding and is unchanged by construction.  The
global-uniqueness proviso is necessary: `validateConfig` accepts a name
duplicated across traits, and there the name-keyed decrement maps hit a
namesake instead of the chosen variant (see the counterexample). -/
theorem C2_quota_frame (cfg : Config) (st : QState)
    (hWF : WFState cfg st) (hTU : tierIdsUnique cfg) (hVU : variantNamesUnique cfg) :
    (∀ e, (attemptOnce cfg st).1 = .errored e →
       ((attemptOnce cfg st).2).remTiers = st.remTiers ∧
       ((attemptOnce cfg st).2).remTraits = st.remTraits) ∧
    ((attemptOnce cfg st).1 = .outOfRange →
       ((attemptOnce cfg st).2).remTiers = st.remTiers ∧
       ((attemptOnce cfg st).2).remTraits = st.remTraits) ∧
    (∀ tid tn sc sels, (attemptOnce cfg st).1 = .committed tid tn sc sels →
       ((attemptOnce cfg st).2).remTiers = st.remTiers.map (decTierById tid) ∧
       ((attemptOnce cfg st).2).remTraits
         = st.remTraits.map (decBySelected (sels.map (fun s => s.variant.name)))) := by
  rcases attemptOnce_master cfg st hWF hTU hVU with
    ⟨e, hout, ht, hv⟩ | ⟨hout, ht, hv⟩ |
    ⟨tid, tn, sc, sels, hout, _, _, ht, hv⟩
  · refine ⟨fun e' h => ⟨ht, hv⟩, fun h => ?_, fun tid tn sc sels h => ?_⟩
    · rw [hout] at h; cases h
    · rw [hout] at h; cases h
  · refine ⟨fun e' h => ?_, fun _ => ⟨ht, hv⟩, fun tid tn sc sels h => ?_⟩
    · rw [hout] at h; cases h
    · rw [hout] at h; cases h
  · refine ⟨fun e' h => ?_, fun h => ?_, fun tid' tn' sc' sels' h => ?_⟩
    · rw [hout] at h; cases h
    · rw [hout] at h; cases h
    · rw [hout] at h
      obtain ⟨rfl, -, -, rfl⟩ := AttemptOutcome.committed.injEq .. ▸ h
      exact ⟨ht, hv⟩

/-- Witness for C2 at the sample configuration: the first attempt commits
tier `T5` and variant `V1`, and the state after the attempt is exactly the
pointwise decrement of the chosen tier and variant. -/
theorem C2_witness :
    ((attemptOnce sampleConfig (initState sampleConfig)).2).remTiers
        = (initState sampleConfig).remTiers.map (decTierById "T5") ∧
    ((attemptOnce sampleConfig (initState sampleConfig)).2).remTraits
        = (initState sampleConfig).remTraits.map
            (decBySelected ([Selection.mk "socks" sampleVariant].map
              (fun s => s.variant.name))) :=
  (C2_quota_frame sampleConfig (initState sampleConfig)
      ⟨rfl, rfl⟩ (by unfold tierIdsUnique; decide)
      (by unfold variantNamesUnique; decide)).2.2
    "T5" "Common" 5 [Selection.mk "socks" sampleVariant] rfl

/-- Counterexample for C2 as stated: on `dupConfig` — accepted by the
engine's validation, but with the variant name `A` present in both traits
— the first attempt commits with `socks.A` and `shoes.A` chosen, yet the
resulting state is **not** the claimed frame (each chosen counter down by
one, everything else unchanged): the chosen `socks.A` counter is not
decremented at all and the `shoes.A` counter is decremented twice, to
`-1`, because both name-keyed lookups resolve `A` to the last trait
declaring it. -/
theorem C2_counterexample :
    (attemptOnce dupConfig (initState dupConfig)).1
      = .committed "T5" "Common" 0
          [{ trait := "socks", variant := dupVariant }
          , { trait := "shoes", variant := dupVariant }] ∧
    ((attemptOnce dupConfig (initState dupConfig)).2).remTiers
      = [{ id := "T5", name := "Common", scoreRange := (0, 10), quota := 0 }] ∧
    ((attemptOnce dupConfig (initState dupConfig)).2).remTraits
      = [{ trait := "socks", variants := [dupVariant] }
        , { trait := "shoes", variants :=
            [{ name := "A", tier := "T5", points := 0, quota := -1 }] }] ∧
    ((attemptOnce dupConfig (initState dupConfig)).2).remTraits
      ≠ [{ trait := "socks", variants :=
            [{ name := "A", tier := "T5", points := 0, quota := 0 }] }
        , { trait := "shoes", variants :=
            [{ name := "A", tier := "T5", points := 0, quota := 0 }] }] :=
  ⟨rfl, rfl, rfl, by decide⟩

/-! ### Non-negativity of all counters (C9) -/

/-- Globally distinct variant names identify variants across the whole
quota state. -/
theorem variant_name_inj (rt : List TraitCfg)
    (hnd : ((rt.map (fun tc => tc.variants.map (fun v => v.name))).flatten).Nodup) :
    ∀ tc1 ∈ rt, ∀ v1 ∈ tc1.variants, ∀ tc2 ∈ rt, ∀ v2 ∈ tc2.variants,
    v1.name = v2.name → v1 = v2 := by
  intro tc1 htc1 v1 hv1 tc2 htc2 v2 hv2 hname
  have hflatmap : ((rt.map (fun tc => tc.variants)).flatten.map (fun v => v.name)).Nodup := by
    rw [List.map_flatten, List.map_map]
    exact hnd
  have hinj := List.inj_on_of_nodup_map hflatmap
  exact hinj (List.mem_flatten.mpr ⟨tc1.variants, List.mem_map_of_mem _ htc1, hv1⟩)
    (List.mem_flatten.mpr ⟨tc2.variants, List.mem_map_of_mem _ htc2, hv2⟩) hname

/-- One attempt preserves well-formedness and the non-negativity of all
remaining counters. -/
theorem attemptOnce_preserves (cfg : Config) (st : QState)
    (hWF : WFState cfg st) (hTU : tierIdsUnique cfg) (hVU : variantNamesUnique cfg)
    (hNN : quotasNonneg st) :
    WFState cfg (attemptOnce cfg st).2 ∧ quotasNonneg (attemptOnce cfg st).2 := by
  constructor
  · obtain ⟨h1, h2⟩ := attemptOnce_shapes cfg st
    exact ⟨h1.trans hWF.1, h2.trans hWF.2⟩
  · obtain ⟨hNT, hNV⟩ := hNN
    rcases attemptOnce_master cfg st hWF hTU hVU with
      ⟨e, hout, ht, hv⟩ | ⟨hout, ht, hv⟩ |
      ⟨tid, tn, sc, sels, hout, hex, hrel, ht, hv⟩
    · exact ⟨by rw [ht]; exact hNT, by rw [hv]; exact hNV⟩
    · exact ⟨by rw [ht]; exact hNT, by rw [hv]; exact hNV⟩
    · constructor
      · rw [ht]
        intro t' ht'
        obtain ⟨t, htmem, rfl⟩ := List.mem_map.mp ht'
        unfold decTierById
        by_cases hid : t.id = tid
        · rw [if_pos hid]
          obtain ⟨t0, ht0, hid0, hq0⟩ := hex
          have hnd : (st.remTiers.map (fun t => t.id)).Nodup := by
            rw [shape_to_ids hWF.1]; exact hTU
          have : t = t0 := List.inj_on_of_nodup_map hnd htmem ht0 (by rw [hid, hid0])
          subst this
          unfold decTierQuota
          simp only
          omega
        · rw [if_neg hid]
          exact hNT t htmem
      · rw [hv]
        intro tc' htc' v' hv'
        obtain ⟨tc, htcmem, rfl⟩ := List.mem_map.mp htc'
        unfold decBySelected at hv'
        simp only at hv'
        obtain ⟨v, hvmem, rfl⟩ := List.mem_map.mp hv'
        by_cases hin : v.name ∈ sels.map (fun s => s.variant.name)
        · rw [if_pos hin]
          obtain ⟨sel, hselmem, hseln⟩ := List.mem_map.mp hin
          obtain ⟨tc1, htc1, hr⟩ := forall₂_mem_right hrel sel hselmem
          have hfl : ((st.remTraits.map (fun tc => tc.variants.map
              (fun v => v.name))).flatten).Nodup := by
            rw [shape_to_names hWF.2]; exact hVU
          have hveq : sel.variant = v :=
            variant_name_inj st.remTraits hfl tc1 htc1 sel.variant hr.2.1
              tc htcmem v hvmem hseln
          unfold decVarQuota
          simp only
          have := hr.2.2.2
          rw [hveq] at this
          omega
        · rw [if_neg hin]
          exact hNV tc htcmem v hvmem

/-- The retry loop preserves well-formedness and counter
non-negativity. -/
theorem generateNFTLoop_preserves (cfg : Config) (mr : Nat)
    (hTU : tierIdsUnique cfg) (hVU : variantNamesUnique cfg) :
    ∀ (fuel attempts : Nat) (st : QState), WFState cfg st → quotasNonneg st →
    WFState cfg (generateNFTLoop cfg mr fuel attempts st).2 ∧
    quotasNonneg (generateNFTLoop cfg mr fuel attempts st).2 := by
  intro fuel
  induction fuel with
  | zero => intro attempts st hWF hNN; exact ⟨hWF, hNN⟩
  | succ fuel ih =>
    intro attempts st hWF hNN
    have hpres := attemptOnce_preserves cfg st hWF hTU hVU hNN
    unfold generateNFTLoop
    cases hA : attemptOnce cfg st with
    | mk out st' =>
      rw [hA] at hpres
      cases out with
      | committed tid tn sc sels => exact hpres
      | outOfRange => exact ih (attempts + 1) st' hpres.1 hpres.2
      | errored e => exact ih (attempts + 1) st' hpres.1 hpres.2

/-- Any number of sequential `generateNFT` calls preserves well-formedness
and counter non-negativity. -/
theorem runEngine_preserves (cfg : Config)
    (hTU : tierIdsUnique cfg) (hVU : variantNamesUnique cfg) :
    ∀ (n : Nat) (st : QState), WFState cfg st → quotasNonneg st →
    WFState cfg (runEngine cfg st n).2 ∧ quotasNonneg (runEngine cfg st n).2 := by
  intro n
  induction n with
  | zero => intro st hWF hNN; exact ⟨hWF, hNN⟩
  | succ n ih =>
    intro st hWF hNN
    have h1 := generateNFTLoop_preserves cfg 100 hTU hVU 100 0 st hWF hNN
    unfold runEngine generateNFT
    cases hG : generateNFTLoop cfg 100 100 0 st with
    | mk r st' =>
      rw [hG] at h1
      exact ih st' h1.1 h1.2

/-- C9 (amended): for every configuration with unique tier ids and
**globally unique variant names across all traits** whose quota state is
well-formed and has non-negative counters (as holds right after
`loadConfig` for non-negative configured quotas), every remaining tier
counter and every remaining variant counter stays non-negative across any
sequence of `generateNFT` calls: a counter is only decremented when it is
strictly positive at selection time.  The global-uniqueness proviso is
necessary: with a variant name duplicated across traits the name-keyed
decrement can drive a namesake's counter below zero (see the
counterexample). -/
theorem C9_quotas_stay_nonneg (cfg : Config) (st : QState) (n : Nat)
    (hWF : WFState cfg st) (hTU : tierIdsUnique cfg) (hVU : variantNamesUnique cfg)
    (hNN : quotasNonneg st) :
    quotasNonneg (runEngine cfg st n).2 :=
  (runEngine_preserves cfg hTU hVU n st hWF hNN).2

/-- Witness for C9 at the sample configuration across two generation
calls. -/
theorem C9_witness : quotasNonneg (runEngine sampleConfig (initState sampleConfig) 2).2 :=
  C9_quotas_stay_nonneg sampleConfig (initState sampleConfig) 2 ⟨rfl, rfl⟩
    (by unfold tierIdsUnique; decide) (by unfold variantNamesUnique; decide)
    (by unfold quotasNonneg; decide)

/-- Counterexample for C9 as stated: `dupConfig` has every counter
initially non-negative, but its variant name `A` appears in two traits, so
the claim's provisos about the configuration are met while the
global-uniqueness proviso of the amendment is not.  A single `generateNFT`
call commits on the first attempt and drives the `shoes.A` counter to
`-1` — it is decremented once for each of the two chosen namesakes — so
non-negativity of the counters does not survive the call. -/
theorem C9_counterexample :
    quotasNonneg (initState dupConfig) ∧
    ((runEngine dupConfig (initState dupConfig) 1).2).remTraits
      = [{ trait := "socks", variants := [dupVariant] }
        , { trait := "shoes", variants :=
            [{ name := "A", tier := "T5", points := 0, quota := -1 }] }] ∧
    ¬ quotasNonneg (runEngine dupConfig (initState dupConfig) 1).2 :=
  ⟨by unfold quotasNonneg; decide, rfl, by unfold quotasNonneg; decide⟩

/-! ### Successful results satisfy the score contract (C1) -/

/-- A committed attempt decomposes into its selector, score and range-check
steps. -/
theorem attemptOnce_committed_inv (cfg : Config) (st : QState)
    (tid tn : String) (sc : Int) (sels : List Selection)
    (h : (attemptOnce cfg st).1 = .committed tid tn sc sels) :
    ∃ s1 s2 ti,
      selectTierWeighted st.remTiers st.seed = (.ok tid, s1) ∧
      selectVariantsForTier st.remTraits tid s1 = (.ok sels, s2) ∧
      sc = calculateScore sels ∧
      isScoreInTierRange cfg sc tid = .ok true ∧
      getTierById cfg tid = .ok ti ∧ tn = ti.name := by
  unfold attemptOnce at h
  cases hsel : selectTierWeighted st.remTiers st.seed with
  | mk r1 s1 =>
    rw [hsel] at h
    cases r1 with
    | error e => simp at h
    | ok tid' =>
      dsimp only at h
      cases hvar : selectVariantsForTier st.remTraits tid' s1 with
      | mk r2 s2 =>
        rw [hvar] at h
        cases r2 with
        | error e => simp at h
        | ok sels' =>
          dsimp only at h
          cases hisr : isScoreInTierRange cfg (calculateScore sels') tid' with
          | error e => rw [hisr] at h; simp at h
          | ok b =>
            rw [hisr] at h
            cases b with
            | false => simp at h
            | true =>
              dsimp only at h
              cases hdq : decrementQuotas cfg st.remTiers st.remTraits tid' sels' with
              | mk e p =>
                rw [hdq] at h
                cases e with
                | some e1 => simp at h
                | none =>
                  dsimp only at h
                  cases hget : getTierById cfg tid' with
                  | error e2 => rw [hget] at h; simp at h
                  | ok ti =>
                    rw [hget] at h
                    simp only [AttemptOutcome.committed.injEq] at h
                    obtain ⟨rfl, rfl, rfl, rfl⟩ := h
                    exact ⟨s1, s2, ti, rfl, hvar, rfl, hisr, hget, rfl⟩

/-- A successful retry-loop result arises from a committed attempt whose
starting state has the same shapes as the loop's starting state. -/
theorem generateNFTLoop_ok_inv (cfg : Config) (mr : Nat) :
    ∀ (fuel attempts : Nat) (st : QState) (tid tn : String) (sc : Int)
      (sels : List Selection) (a : Nat) (stF : QState),
    generateNFTLoop cfg mr fuel attempts st = (.ok tid tn sc sels a, stF) →
    ∃ st₀ : QState,
      st₀.remTiers.map Tier.shape = st.remTiers.map Tier.shape ∧
      st₀.remTraits.map TraitCfg.shape = st.remTraits.map TraitCfg.shape ∧
      (attemptOnce cfg st₀).1 = .committed tid tn sc sels := by
  intro fuel
  induction fuel with
  | zero =>
    intro attempts st tid tn sc sels a stF h
    simp [generateNFTLoop] at h
  | succ fuel ih =>
    intro attempts st tid tn sc sels a stF h
    unfold generateNFTLoop at h
    have hshapes := attemptOnce_shapes cfg st
    cases hA : attemptOnce cfg st with
    | mk out st' =>
      rw [hA] at h hshapes
      cases out with
      | committed tid' tn' sc' sels' =>
        simp only [Prod.mk.injEq, GenerationResult.ok.injEq] at h
        obtain ⟨⟨rfl, rfl, rfl, rfl, -⟩, -⟩ := h
        exact ⟨st, rfl, rfl, by rw [hA]⟩
      | outOfRange =>
        obtain ⟨st₀, h1, h2, h3⟩ := ih (attempts + 1) st' tid tn sc sels a stF h
        exact ⟨st₀, h1.trans hshapes.1, h2.trans hshapes.2, h3⟩
      | errored e =>
        obtain ⟨st₀, h1, h2, h3⟩ := ih (attempts + 1) st' tid tn sc sels a stF h
        exact ⟨st₀, h1.trans hshapes.1, h2.trans hshapes.2, h3⟩

/-- C1: for every successful result of `generateNFT` on a well-formed
state, the reported score equals the sum of the selected variants'
configured point values (one selection per category, in configuration
order, each selection's name and points present in the configuration's
category), and the score lies inclusively within the `[min, max]` score
range of the result's tier as configured. -/
theorem C1_score_sum_and_range (cfg : Config) (maxRetries : Nat) (st : QState)
    (tid tn : String) (sc : Int) (sels : List Selection) (a : Nat) (stF : QState)
    (hrun : generateNFT cfg maxRetries st = (.ok tid tn sc sels a, stF))
    (hWF : WFState cfg st) :
    sc = (sels.map (fun s => s.variant.points)).sum ∧
    (∃ t ∈ cfg.tiers, t.id = tid ∧ t.scoreRange.1 ≤ sc ∧ sc ≤ t.scoreRange.2) ∧
    sels.map (fun s => s.trait) = cfg.traits.map (fun tc => tc.trait) ∧
    List.Forall₂ (fun tc sel => ∃ v ∈ tc.variants, v.name = sel.variant.name ∧
      v.points = sel.variant.points) cfg.traits sels := by
  obtain ⟨st₀, hsh1, hsh2, hcom⟩ :=
    generateNFTLoop_ok_inv cfg maxRetries maxRetries 0 st tid tn sc sels a stF hrun
  have hshT : st₀.remTiers.map Tier.shape = cfg.tiers.map Tier.shape := hsh1.trans hWF.1
  have hshV : st₀.remTraits.map TraitCfg.shape = cfg.traits.map TraitCfg.shape :=
    hsh2.trans hWF.2
  obtain ⟨s1, s2, ti, hsel, hvar, hsc, hisr, hget, htn⟩ :=
    attemptOnce_committed_inv cfg st₀ tid tn sc sels hcom
  have hrel := selectVariantsForTier_ok hvar
  refine ⟨hsc, ?_, ?_, ?_⟩
  · -- the configured tier contains the score
    unfold isScoreInTierRange at hisr
    rw [hget] at hisr
    simp only [Except.ok.injEq, Bool.and_eq_true, decide_eq_true_eq] at hisr
    unfold getTierById at hget
    cases hfind : cfg.tiers.find? (fun t => t.id == tid) with
    | none => rw [hfind] at hget; cases hget
    | some t =>
      rw [hfind] at hget
      have hti := Except.ok.inj hget
      subst hti
      have hmem := List.mem_of_find?_eq_some hfind
      have hid := List.find?_some hfind
      simp only [beq_iff_eq] at hid
      exact ⟨t, hmem, hid, hisr.1, hisr.2⟩
  · -- one selection per category, in configuration order
    rw [selectVariantsForTier_trait_names hvar]
    exact shape_to_traits hshV
  · -- names and points are the configured ones
    have hshapes := map_eq_forall₂ TraitCfg.shape TraitCfg.shape cfg.traits st₀.remTraits
      hshV.symm
    have hcompose := forall₂_comp hshapes hrel
    apply hcompose.imp
    intro tcC sel ⟨tcR, hshape, hselrel⟩
    have hkeys : tcC.variants.map Variant.key = tcR.variants.map Variant.key := by
      unfold TraitCfg.shape at hshape
      exact congrArg Prod.snd hshape
    have hkmem : Variant.key sel.variant ∈ tcC.variants.map Variant.key := by
      rw [hkeys]
      exact List.mem_map_of_mem _ hselrel.2.1
    obtain ⟨v, hv, hkeq⟩ := List.mem_map.mp hkmem
    refine ⟨v, hv, ?_, ?_⟩
    · exact congrArg (fun k : String × String × Int => k.1) hkeq
    · exact congrArg (fun k : String × String × Int => k.2.2) hkeq

/-- Witness for C1: a concrete successful generation whose score is the
selected variant's point value and lies inside the configured range of
tier `T5`. -/
theorem C1_witness :
    (5 : Int) = ([Selection.mk "socks" sampleVariant].map (fun s => s.variant.points)).sum ∧
    (∃ t ∈ sampleConfig.tiers, t.id = "T5" ∧ t.scoreRange.1 ≤ 5 ∧ 5 ≤ t.scoreRange.2) ∧
    [Selection.mk "socks" sampleVariant].map (fun s => s.trait)
      = sampleConfig.traits.map (fun tc => tc.trait) ∧
    List.Forall₂ (fun tc sel => ∃ v ∈ tc.variants, v.name = sel.variant.name ∧
      v.points = sel.variant.points) sampleConfig.traits
      [Selection.mk "socks" sampleVariant] :=
  C1_score_sum_and_range sampleConfig 100 (initState sampleConfig)
    "T5" "Common" 5 [Selection.mk "socks" sampleVariant] 1
    (generateNFT sampleConfig 100 (initState sampleConfig)).2 rfl ⟨rfl, rfl⟩

end RarityEngine
